import Mathlib

/-!
Verification of the Apache access-log parsing and aggregation notebook
(`src/Solutions/lab2_apache_log_student.py`).

The notebook parses Apache Common Log Format lines with `re.search` over the
pattern (final, corrected version from the cell at line 271)

  `^(\S+) (\S+) (\S+) \[([\w:/]+\s[+\-]\d{4})\] "(\S+) (\S+)\s*(\S*)\s*" (\d{3}) (\S+)`

and then aggregates parsed records with Spark collection operations
(map / filter / reduceByKey / takeOrdered / groupByKey / join / min / max).

This file gives a shallow embedding:
* a small regex AST `RE` and a backtracking matcher `matchAll` that enumerates
  matches in Python's leftmost/greedy depth-first order (a `^`-anchored
  `re.search` is a match at position 0; the first enumerated match is the one
  `re.search` returns);
* the exact pattern `APACHE_ACCESS_LOG_PATTERN`;
* `parse_apache_time` and `parseApacheLogLine` mirroring the Python, with
  Python 2 `int`/`long` string-conversion semantics (`pyInt`) and
  `datetime.datetime` range validation (`mkDatetime`); a raised exception is
  modelled as the `ParseOutcome.error` constructor;
* list-level models of the Spark pipelines used by the cells
  (`parseLogs`, `contentSizeAvg?`, `responseCodeToCount`, `endpointCounts`,
  `takeOrdered`, `dailyHosts`, `avgDailyReqPerHost`, `rddMin?`, `rddMax?`).
-/

/-! ## Python 2 `re` character classes (ASCII/bytes semantics) -/

/-- Python 2 `\s` for `str`: space, tab, newline, carriage return,
form feed, vertical tab. -/
def isSpaceP (c : Char) : Bool :=
  c = ' ' || c = '\t' || c = '\n' || c = '\r' || c = '\x0c' || c = '\x0b'

/-- Python 2 `\S`. -/
def nonSpace (c : Char) : Bool := !(isSpaceP c)

/-- Python 2 `\d`. -/
def isDigitB (c : Char) : Bool := '0' ≤ c && c ≤ '9'

/-- Python 2 `\w` for `str` without `re.UNICODE`: `[a-zA-Z0-9_]`. -/
def isWordP (c : Char) : Bool :=
  ('a' ≤ c && c ≤ 'z') || ('A' ≤ c && c ≤ 'Z') || isDigitB c || c = '_'

/-- The class `[\w:/]` used for the timestamp body. -/
def wordColonSlash (c : Char) : Bool := isWordP c || c = ':' || c = '/'

/-- The class `[+\-]` used for the timezone sign. -/
def plusMinus (c : Char) : Bool := c = '+' || c = '-'

/-! ## Regex AST and backtracking matcher

Only the constructs appearing in `APACHE_ACCESS_LOG_PATTERN` are needed:
single-character classes, concatenation, greedy `*` and `+` over a character
class, and numbered capture groups. -/

inductive RE where
  | eps : RE
  | cls : (Char → Bool) → RE
  | seq : RE → RE → RE
  | star : (Char → Bool) → RE
  | plus : (Char → Bool) → RE
  | group : Nat → RE → RE

/-- `dropsDesc s n = [s.drop n, s.drop (n-1), ..., s.drop 0]`: the suffixes a
greedy quantifier tries, longest-consumed first. -/
def dropsDesc (s : List Char) : Nat → List (List Char)
  | 0 => [s]
  | n + 1 => s.drop (n + 1) :: dropsDesc s n

/-- Like `dropsDesc` but never consuming zero characters (for `+`). -/
def dropsDescPos (s : List Char) : Nat → List (List Char)
  | 0 => []
  | n + 1 => s.drop (n + 1) :: dropsDescPos s n

/-- All ways to match `r` against a prefix of `s`, in Python's backtracking
order (greedy quantifiers, leftmost alternative first).  Each result is the
remaining suffix together with the capture-group list (most recently closed
group first).  `re` semantics: the first element is the match `re.search`
commits to. -/
def matchAll : RE → List Char → List (Nat × List Char) →
    List (List Char × List (Nat × List Char))
  | .eps, s, caps => [(s, caps)]
  | .cls _, [], _ => []
  | .cls c, ch :: rest, caps => if c ch then [(rest, caps)] else []
  | .star c, s, caps => (dropsDesc s (s.takeWhile c).length).map (fun r => (r, caps))
  | .plus c, s, caps => (dropsDescPos s (s.takeWhile c).length).map (fun r => (r, caps))
  | .seq a b, s, caps => (matchAll a s caps).flatMap (fun p => matchAll b p.1 p.2)
  | .group n r, s, caps =>
      (matchAll r s caps).map (fun p => (p.1, (n, s.take (s.length - p.1.length)) :: p.2))

/-- Single-character literal. -/
@[reducible] def litc (ch : Char) : RE := .cls (fun c => c = ch)

/-- Right-nested concatenation of a list of pattern pieces. -/
def patSeq (l : List RE) : RE := l.foldr .seq .eps

/-- The corrected log-line pattern from the notebook (cell at line 271):
`^(\S+) (\S+) (\S+) \[([\w:/]+\s[+\-]\d{4})\] "(\S+) (\S+)\s*(\S*)\s*" (\d{3}) (\S+)`.
The leading `^` makes `re.search` equivalent to a match anchored at
position 0, which is how `reSearch` below uses it. -/
def APACHE_ACCESS_LOG_PATTERN : RE := patSeq [
  .group 1 (.plus nonSpace), litc ' ',
  .group 2 (.plus nonSpace), litc ' ',
  .group 3 (.plus nonSpace), litc ' ',
  litc '[',
  .group 4 (patSeq [.plus wordColonSlash, .cls isSpaceP, .cls plusMinus,
                    .cls isDigitB, .cls isDigitB, .cls isDigitB, .cls isDigitB]),
  litc ']', litc ' ',
  litc '"',
  .group 5 (.plus nonSpace), litc ' ',
  .group 6 (.plus nonSpace),
  .star isSpaceP,
  .group 7 (.star nonSpace),
  .star isSpaceP,
  litc '"', litc ' ',
  .group 8 (patSeq [.cls isDigitB, .cls isDigitB, .cls isDigitB]),
  litc ' ',
  .group 9 (.plus nonSpace)]

/-- `re.search(APACHE_ACCESS_LOG_PATTERN, line)`: the first match of the
anchored pattern, or `none`. -/
def reSearch (s : List Char) : Option (List Char × List (Nat × List Char)) :=
  (matchAll APACHE_ACCESS_LOG_PATTERN s []).head?

/-- `match.group(n)`. -/
def getGroup (caps : List (Nat × List Char)) (n : Nat) : Option (List Char) :=
  (caps.find? (fun e => e.1 == n)).map (fun e => e.2)

/-! ## Python `int` / `long` on strings, and `datetime.datetime` -/

/-- Python `str.strip()` whitespace stripping as done by `int()`. -/
def pyStrip (s : List Char) : List Char :=
  ((s.dropWhile isSpaceP).reverse.dropWhile isSpaceP).reverse

/-- Decimal value of a digit list. -/
def digitsVal (l : List Char) : Nat :=
  l.foldl (fun a c => a * 10 + (c.toNat - 48)) 0

/-- Core of Python `int(s)` after whitespace stripping: optional single
sign, then one or more decimal digits; anything else raises `ValueError`
(modelled as `none`). -/
def pyIntCore : List Char → Option Int
  | [] => none
  | c :: rest =>
    if c = '+' then
      (if rest ≠ [] ∧ rest.all isDigitB then some (digitsVal rest) else none)
    else if c = '-' then
      (if rest ≠ [] ∧ rest.all isDigitB then some (-(digitsVal rest : Int)) else none)
    else (if (c :: rest).all isDigitB then some (digitsVal (c :: rest)) else none)

/-- Python 2 `int(s)` / `long(s)` on a string: optional surrounding
whitespace, optional single sign, then one or more decimal digits. -/
def pyInt (s : List Char) : Option Int := pyIntCore (pyStrip s)

/-- Python slice `s[a:b]` (with clamping). -/
def pySlice (s : List Char) (a b : Nat) : List Char := (s.drop a).take (b - a)

/-- The notebook's `month_map` dictionary; a missing key raises `KeyError`
(modelled by `List.lookup` returning `none`). -/
def month_map : List (List Char × Int) :=
  [("Jan".data, 1), ("Feb".data, 2), ("Mar".data, 3), ("Apr".data, 4),
   ("May".data, 5), ("Jun".data, 6), ("Jul".data, 7), ("Aug".data, 8),
   ("Sep".data, 9), ("Oct".data, 10), ("Nov".data, 11), ("Dec".data, 12)]

/-- The value `datetime.datetime(year, month, day, hour, minute, second)`
(timezone-naive, matching the notebook's documented choice). -/
structure PyDateTime where
  year : Int
  month : Int
  day : Int
  hour : Int
  minute : Int
  second : Int
deriving DecidableEq

/-- Gregorian leap-year rule used by `datetime`. -/
def isLeap (y : Int) : Bool := y % 4 = 0 && (y % 100 ≠ 0 || y % 400 = 0)

/-- Days in a month as validated by `datetime.datetime`. -/
def daysInMonth (y m : Int) : Int :=
  if m = 2 then (if isLeap y then 29 else 28)
  else if m = 4 ∨ m = 6 ∨ m = 9 ∨ m = 11 then 30
  else 31

/-- `datetime.datetime(y, m, d, hh, mm, ss)`: raises `ValueError` on
out-of-range components (modelled as `none`). -/
def mkDatetime (y m d hh mm ss : Int) : Option PyDateTime :=
  if 1 ≤ y ∧ y ≤ 9999 ∧ 1 ≤ m ∧ m ≤ 12 ∧ 1 ≤ d ∧ d ≤ daysInMonth y m ∧
     0 ≤ hh ∧ hh ≤ 23 ∧ 0 ≤ mm ∧ mm ≤ 59 ∧ 0 ≤ ss ∧ ss ≤ 59 then
    some ⟨y, m, d, hh, mm, ss⟩
  else none

/-- `parse_apache_time(s)` from the notebook: fixed-position slices of the
timestamp text; `int(...)` or the `month_map` lookup or the `datetime`
constructor may raise (modelled as `none`). -/
def parse_apache_time (s : List Char) : Option PyDateTime := do
  let y ← pyInt (pySlice s 7 11)
  let m ← month_map.lookup (pySlice s 3 6)
  let d ← pyInt (pySlice s 0 2)
  let hh ← pyInt (pySlice s 12 14)
  let mm ← pyInt (pySlice s 15 17)
  let ss ← pyInt (pySlice s 18 20)
  mkDatetime y m d hh mm ss

/-! ## The record model and the parse function -/

/-- The `Row` built by `parseApacheLogLine` on a successful parse. -/
structure AccessLogRecord where
  host : List Char
  client_identd : List Char
  user_id : List Char
  date_time : PyDateTime
  method : List Char
  endpoint : List Char
  protocol : List Char
  response_code : Int
  content_size : Int
deriving DecidableEq

/-- Outcome of `parseApacheLogLine`: `(Row, 1)`, `(line, 0)`, or a raised
exception (`ValueError` from `long`/`int`, `KeyError` from `month_map`, or
`ValueError` from `datetime`). -/
inductive ParseOutcome where
  | record (r : AccessLogRecord)
  | failure (line : List Char)
  | error
deriving DecidableEq

/-- `parseApacheLogLine(logline)` from the notebook.  On no regex match it
returns the raw line tagged as a failure; on a match it converts the size
field (`-` becomes `0`, otherwise `long(...)`), then builds the `Row`,
evaluating `parse_apache_time(match.group(4))` and `int(match.group(8))` in
the same order as the Python keyword arguments.  Any raised exception is
`ParseOutcome.error`.  (On a match, groups 1-9 are always present; the
`getD []` default is unreachable.) -/
def parseApacheLogLine (logline : List Char) : ParseOutcome :=
  match reSearch logline with
  | none => .failure logline
  | some (_, caps) =>
    let size_field := (getGroup caps 9).getD []
    match (if size_field = ['-'] then some 0 else pyInt size_field) with
    | none => .error
    | some size =>
      match parse_apache_time ((getGroup caps 4).getD []) with
      | none => .error
      | some dt =>
        match pyInt ((getGroup caps 8).getD []) with
        | none => .error
        | some code =>
          .record { host := (getGroup caps 1).getD [],
                    client_identd := (getGroup caps 2).getD [],
                    user_id := (getGroup caps 3).getD [],
                    date_time := dt,
                    method := (getGroup caps 5).getD [],
                    endpoint := (getGroup caps 6).getD [],
                    protocol := (getGroup caps 7).getD [],
                    response_code := code,
                    content_size := size }

/-- The raw size field of a line: capture group 9 of the match, when the
pattern matches the line at all. -/
def sizeField (line : List Char) : Option (List Char) :=
  (reSearch line).bind (fun p => getGroup p.2 9)

/-- `parseLogs()` from the notebook: map `parseApacheLogLine` over the lines,
split into successfully parsed records (`s[1] == 1`) and failed lines
(`s[1] == 0`).  A raised exception anywhere fails the whole job (`none`). -/
def parseLogs (lines : List (List Char)) :
    Option (List AccessLogRecord × List (List Char)) :=
  let parsed := lines.map parseApacheLogLine
  if parsed.any (fun o => o = ParseOutcome.error) then none
  else some (parsed.filterMap (fun o => match o with
                | .record r => some r | _ => none),
             parsed.filterMap (fun o => match o with
                | .failure l => some l | _ => none))

/-! ## Spark collection operations used by the analysis cells -/

/-- Convenience: a string literal as a list of characters. -/
def strL (s : String) : List Char := s.data

/-- `rdd.count()`. -/
def rddCount {α : Type} (l : List α) : Nat := l.length

/-- `rdd.reduce(lambda a, b : a + b)` on a non-empty integer RDD
(the reduction of `content_sizes` in cell 2a); `none` models the
exception Spark raises on an empty collection. -/
def rddSum? (l : List Int) : Option Int :=
  match l with
  | [] => none
  | x :: xs => some (xs.foldl (fun a b => a + b) x)

/-- `rdd.min()` (a `reduce` with `min`); `none` on empty. -/
def rddMin? (l : List Int) : Option Int :=
  match l with
  | [] => none
  | x :: xs => some (xs.foldl min x)

/-- `rdd.max()`. -/
def rddMax? (l : List Int) : Option Int :=
  match l with
  | [] => none
  | x :: xs => some (xs.foldl max x)

/-- Merging two partial reductions of possibly-empty partitions. -/
def optMerge (f : Int → Int → Int) : Option Int → Option Int → Option Int
  | none, b => b
  | some a, none => some a
  | some a, some b => some (f a b)

/-- `access_logs.map(lambda log: log.content_size)` (cell 2a). -/
def content_sizes (logs : List AccessLogRecord) : List Int :=
  logs.map (fun log => log.content_size)

/-- The average in cell 2a:
`content_sizes.reduce(lambda a, b : a + b) / content_sizes.count()`.
Python 2 `/` on integers is floor division (`Int.fdiv`). -/
def contentSizeAvg? (sizes : List Int) : Option Int :=
  (rddSum? sizes).map (fun s => Int.fdiv s (rddCount sizes))

/-- One step of `reduceByKey(lambda a, b : a + b)`: fold a key-value pair
into an association list, adding to an existing key's value. -/
def insertAdd {K : Type} [DecidableEq K] :
    List (K × Nat) → K → Nat → List (K × Nat)
  | [], k, v => [(k, v)]
  | (k', v') :: rest, k, v =>
      if k = k' then (k', v' + v) :: rest else (k', v') :: insertAdd rest k v

/-- `pairs.reduceByKey(lambda a, b : a + b)` as an association list keyed by
first occurrence (Spark's result order is partition-dependent; all theorems
below are stated through key lookups or membership, which are
order-independent). -/
def reduceByKeyAdd {K : Type} [DecidableEq K] (pairs : List (K × Nat)) :
    List (K × Nat) :=
  pairs.foldl (fun acc p => insertAdd acc p.1 p.2) []

/-- The count an association list assigns to a key (0 if absent). -/
def lookupCount {K : Type} [DecidableEq K] (l : List (K × Nat)) (k : K) : Nat :=
  ((l.find? (fun e => decide (e.1 = k))).map (fun e => e.2)).getD 0

/-- Total of the values attached to key `k` in a pair list. -/
def sumVals {K : Type} [DecidableEq K] (pairs : List (K × Nat)) (k : K) : Nat :=
  ((pairs.filter (fun e => decide (e.1 = k))).map (fun e => e.2)).sum

/-- `rdd.distinct()` / Python `set(...)` as a first-occurrence dedup. -/
def pyDistinct {α : Type} [DecidableEq α] (l : List α) : List α :=
  l.foldl (fun acc x => if x ∈ acc then acc else acc ++ [x]) []

/-- `pairs.groupByKey()`: one entry per distinct key, with the list of all
values attached to it, keys in first-occurrence order. -/
def groupByKey {K α : Type} [DecidableEq K] (pairs : List (K × α)) :
    List (K × List α) :=
  (pyDistinct (pairs.map (fun p => p.1))).map
    (fun k => (k, (pairs.filter (fun p => decide (p.1 = k))).map (fun p => p.2)))

/-- `a.join(b)` on pair RDDs: inner join on the key. -/
def rddJoin {K α β : Type} [DecidableEq K]
    (a : List (K × α)) (b : List (K × β)) : List (K × (α × β)) :=
  a.flatMap (fun p =>
    (b.filter (fun q => decide (q.1 = p.1))).map (fun q => (p.1, (p.2, q.2))))

/-- Insertion step for `sortByKey()` over integer keys (ascending, stable). -/
def insertByKeyInt {α : Type} (p : Int × α) :
    List (Int × α) → List (Int × α)
  | [] => [p]
  | q :: qs => if q.1 ≤ p.1 then q :: insertByKeyInt p qs else p :: q :: qs

/-- `pairs.sortByKey()` for integer keys. -/
def sortByKeyInt {α : Type} (l : List (Int × α)) : List (Int × α) :=
  l.foldr insertByKeyInt []

/-- Insertion step for sorting key-count pairs by descending count (the order
`takeOrdered(num, lambda s: -1 * s[1])` uses; the order among equal counts is
partition-dependent in Spark, so every theorem below is tie-independent). -/
def insertByCountDesc {K : Type} (p : K × Nat) :
    List (K × Nat) → List (K × Nat)
  | [] => [p]
  | q :: qs => if p.2 ≤ q.2 then q :: insertByCountDesc p qs else p :: q :: qs

/-- Sort key-count pairs by descending count. -/
def sortByCountDesc {K : Type} (l : List (K × Nat)) : List (K × Nat) :=
  l.foldr insertByCountDesc []

/-- `rdd.takeOrdered(num, lambda s: -1 * s[1])`: the `num` pairs of highest
count.  For `num <= 0` Spark's implementation (`heapq.nsmallest`) silently
returns the empty list, which `Int.toNat` reproduces. -/
def takeOrdered {K : Type} (num : Int) (l : List (K × Nat)) : List (K × Nat) :=
  (sortByCountDesc l).take num.toNat

/-- `endpointCounts` (cell 2f):
`access_logs.map(lambda log: (log.endpoint, 1)).reduceByKey(lambda a, b : a + b)`. -/
def endpointCounts (logs : List AccessLogRecord) : List (List Char × Nat) :=
  reduceByKeyAdd (logs.map (fun log => (log.endpoint, 1)))

/-- `topEndpoints` (cell 2f) with the take count as a parameter
(the notebook calls it with `10`, and cell 4c with `20`). -/
def topEndpoints (num : Int) (logs : List AccessLogRecord) :
    List (List Char × Nat) :=
  takeOrdered num (endpointCounts logs)

/-- `responseCodeToCount` (cell 2b):
`access_logs.map(lambda log: (log.response_code, 1)).reduceByKey(lambda a, b : a + b)`. -/
def responseCodeToCount (logs : List AccessLogRecord) : List (Int × Nat) :=
  reduceByKeyAdd (logs.map (fun log => (log.response_code, 1)))

/-- `dayAndHostTuple` (cell 3e):
`access_logs.map(lambda log: (log.date_time.date().day, 1)).reduceByKey(lambda a, b : a + b).distinct()`. -/
def dayAndHostTuple (logs : List AccessLogRecord) : List (Int × Nat) :=
  pyDistinct (reduceByKeyAdd (logs.map (fun log => (log.date_time.day, 1))))

/-- `dailyHosts` (cells 3c/3d): group the `(day, host)` pairs by day, count
distinct hosts per day (`len(set(b))`), and sort by day. -/
def dailyHosts (logs : List AccessLogRecord) : List (Int × Nat) :=
  sortByKeyInt
    ((groupByKey (logs.map (fun log => (log.date_time.day, log.host)))).map
      (fun p => (p.1, (pyDistinct p.2).length)))

/-- `avgDailyReqPerHost` (cell 3e): join day request totals with day unique
host counts, sort by day, and divide (`b[0]/b[1]`, Python 2 integer
division; both operands are non-negative counts, so `Nat` division is
exact floor = truncation). -/
def avgDailyReqPerHost (logs : List AccessLogRecord) : List (Int × Nat) :=
  (sortByKeyInt (rddJoin (dayAndHostTuple logs) (dailyHosts logs))).map
    (fun p => (p.1, p.2.1 / p.2.2))

/-- Number of requests on day `d` (the reference value for cell 3e's
per-day totals). -/
def reqOnDay (logs : List AccessLogRecord) (d : Int) : Nat :=
  (logs.filter (fun log => decide (log.date_time.day = d))).length

/-- Number of distinct hosts seen on day `d`. -/
def uniqHostsOnDay (logs : List AccessLogRecord) (d : Int) : Nat :=
  (pyDistinct ((logs.filter (fun log => decide (log.date_time.day = d))).map
    (fun log => log.host))).length

/-! ## Satisfaction predicate for capture-group soundness -/

/-- The strings a pattern piece can consume. -/
inductive Sat : RE → List Char → Prop
  | eps : Sat .eps []
  | cls {c : Char → Bool} {ch : Char} : c ch = true → Sat (.cls c) [ch]
  | seq {a b : RE} {t u : List Char} : Sat a t → Sat b u → Sat (.seq a b) (t ++ u)
  | star {c : Char → Bool} {t : List Char} :
      (∀ ch ∈ t, c ch = true) → Sat (.star c) t
  | plus {c : Char → Bool} {t : List Char} :
      t ≠ [] → (∀ ch ∈ t, c ch = true) → Sat (.plus c) t
  | group {n : Nat} {r : RE} {t : List Char} : Sat r t → Sat (.group n r) t

/-- Every capture group with index `n` occurring inside the pattern captures
only text satisfying `P n`. -/
def GroupsP (P : Nat → List Char → Prop) : RE → Prop
  | .eps => True
  | .cls _ => True
  | .star _ => True
  | .plus _ => True
  | .seq a b => GroupsP P a ∧ GroupsP P b
  | .group n r => (∀ t, Sat r t → P n t) ∧ GroupsP P r

/-- Shape of a `\d{3}` capture. -/
def ThreeDigits (t : List Char) : Prop :=
  ∃ a b c, t = [a, b, c] ∧ isDigitB a = true ∧ isDigitB b = true ∧ isDigitB c = true

/-- What the log pattern guarantees about its captures: group 8 (`\d{3}`) is
three digits, group 9 (`\S+`) is a non-empty run of non-whitespace. -/
def P_pat (n : Nat) (t : List Char) : Prop :=
  (n = 8 → ThreeDigits t) ∧ (n = 9 → t ≠ [] ∧ ∀ ch ∈ t, nonSpace ch = true)

/-! ## Concrete inputs used by the claim theorems -/

/-- A regex-matching line whose size field `abc` makes `long(...)` raise
`ValueError` inside `parseApacheLogLine`. -/
def c1Line : List Char := strL "a b c [01/Jan/1995:00:00:00 +0000] \"G /p\" 200 abc"

/-- Another such line (size field `9x`). -/
def c2BadLine : List Char := strL "a b c [01/Jan/1995:00:00:00 +0000] \"G /p\" 200 9x"

/-- A well-formed log line. -/
def goodLine : List Char :=
  strL "h - - [01/Aug/1995:00:00:01 -0400] \"GET /p HTTP/1.0\" 200 7"

/-- The record `parseApacheLogLine` produces for `goodLine`. -/
def goodRec : AccessLogRecord :=
  { host := strL "h", client_identd := strL "-", user_id := strL "-",
    date_time := ⟨1995, 8, 1, 0, 0, 1⟩, method := strL "GET",
    endpoint := strL "/p", protocol := strL "HTTP/1.0",
    response_code := 200, content_size := 7 }

/-- A regex-matching line whose size field is `-7` (`\S+` admits a sign,
and `long("-7")` is `-7`). -/
def negSizeLine : List Char :=
  strL "a b c [01/Jan/1995:00:00:00 +0000] \"G /p HTTP/1.0\" 200 -7"

/-- The record produced for `negSizeLine`: its `content_size` is negative. -/
def negSizeRec : AccessLogRecord :=
  { host := strL "a", client_identd := strL "b", user_id := strL "c",
    date_time := ⟨1995, 1, 1, 0, 0, 0⟩, method := strL "G",
    endpoint := strL "/p", protocol := strL "HTTP/1.0",
    response_code := 200, content_size := -7 }

/-- A regex-matching line whose status field is `000`. -/
def statusZeroLine : List Char :=
  strL "a b c [01/Jan/1995:00:00:00 +0000] \"G /p HTTP/1.0\" 000 5"

/-- The record produced for `statusZeroLine`: `response_code = 0`. -/
def statusZeroRec : AccessLogRecord :=
  { host := strL "a", client_identd := strL "b", user_id := strL "c",
    date_time := ⟨1995, 1, 1, 0, 0, 0⟩, method := strL "G",
    endpoint := strL "/p", protocol := strL "HTTP/1.0",
    response_code := 0, content_size := 5 }

/-- A line whose size field is the literal `-`. -/
def dashLine : List Char :=
  strL "h - - [01/Aug/1995:00:00:01 -0400] \"GET /p HTTP/1.0\" 200 -"

/-- The record produced for `dashLine`: `content_size` is 0. -/
def dashRec : AccessLogRecord :=
  { host := strL "h", client_identd := strL "-", user_id := strL "-",
    date_time := ⟨1995, 8, 1, 0, 0, 1⟩, method := strL "GET",
    endpoint := strL "/p", protocol := strL "HTTP/1.0",
    response_code := 200, content_size := 0 }

/-- Like `goodLine` but with content size 2. -/
def sizeTwoLine : List Char :=
  strL "h - - [01/Aug/1995:00:00:01 -0400] \"GET /p HTTP/1.0\" 200 2"

/-- The record produced for `sizeTwoLine`. -/
def sizeTwoRec : AccessLogRecord :=
  { goodRec with content_size := 2 }

/-- A concrete record (day 1, endpoint `/a`). -/
def recA : AccessLogRecord :=
  { host := strL "hostA", client_identd := strL "-", user_id := strL "-",
    date_time := ⟨1995, 8, 1, 10, 0, 0⟩, method := strL "GET",
    endpoint := strL "/a", protocol := strL "HTTP/1.0",
    response_code := 200, content_size := 100 }

/-- A concrete record (day 1, endpoint `/b`, another host). -/
def recB : AccessLogRecord :=
  { host := strL "hostB", client_identd := strL "-", user_id := strL "-",
    date_time := ⟨1995, 8, 1, 11, 0, 0⟩, method := strL "GET",
    endpoint := strL "/b", protocol := strL "HTTP/1.0",
    response_code := 404, content_size := 3 }

/-- A concrete record (day 3, endpoint `/a` again). -/
def recC : AccessLogRecord :=
  { host := strL "hostA", client_identd := strL "-", user_id := strL "-",
    date_time := ⟨1995, 8, 3, 12, 0, 0⟩, method := strL "GET",
    endpoint := strL "/a", protocol := strL "HTTP/1.0",
    response_code := 200, content_size := 50 }

/-- Prefix of the claim-9 family of lines: everything up to the end of the
protocol token. -/
def c9Pre : List Char := strL "h - - [01/Aug/1995:00:00:01 -0400] \"GET /p HTTP/1.0"

/-- Suffix of the claim-9 family: closing quote, status and size. -/
def c9Post : List Char := strL "\" 200 7"

/-- A log line whose quoted request field ends with `n` trailing spaces
before the closing quote. -/
def c9Line (n : Nat) : List Char := c9Pre ++ List.replicate n ' ' ++ c9Post

/-- The record all `c9Line n` parse to. -/
def c9Rec : AccessLogRecord := goodRec

/-- A log line whose quoted request field has no protocol token. -/
def c9NoProtoLine : List Char :=
  strL "h - - [01/Aug/1995:00:00:01 -0400] \"GET /p\" 200 7"

/-- The record `c9NoProtoLine` parses to: its `protocol` is empty. -/
def c9NoProtoRec : AccessLogRecord :=
  { goodRec with protocol := [] }

/-- The capture list the pattern produces on every `c9Line n`
(most recently closed group first). -/
def c9Caps : List (Nat × List Char) :=
  [(9, strL "7"), (8, strL "200"), (7, strL "HTTP/1.0"), (6, strL "/p"),
   (5, strL "GET"), (4, strL "01/Aug/1995:00:00:01 -0400"), (3, strL "-"),
   (2, strL "-"), (1, strL "h")]

/-! ## The pattern as a right-nested chain of suffixes -/

@[reducible] def G8body : RE :=
  .seq (.cls isDigitB) (.seq (.cls isDigitB) (.seq (.cls isDigitB) .eps))

@[reducible] def G4body : RE :=
  .seq (.plus wordColonSlash) (.seq (.cls isSpaceP) (.seq (.cls plusMinus)
    (.seq (.cls isDigitB) (.seq (.cls isDigitB) (.seq (.cls isDigitB)
      (.seq (.cls isDigitB) .eps))))))

@[reducible] def C22 : RE := .seq (.group 9 (.plus nonSpace)) .eps
@[reducible] def C21 : RE := .seq (litc ' ') C22
@[reducible] def C20 : RE := .seq (.group 8 G8body) C21
@[reducible] def C19 : RE := .seq (litc ' ') C20
@[reducible] def C18 : RE := .seq (litc '"') C19
@[reducible] def C17 : RE := .seq (.star isSpaceP) C18
@[reducible] def C16 : RE := .seq (.group 7 (.star nonSpace)) C17
@[reducible] def C15 : RE := .seq (.star isSpaceP) C16
@[reducible] def C14 : RE := .seq (.group 6 (.plus nonSpace)) C15
@[reducible] def C13 : RE := .seq (litc ' ') C14
@[reducible] def C12 : RE := .seq (.group 5 (.plus nonSpace)) C13
@[reducible] def C11 : RE := .seq (litc '"') C12
@[reducible] def C10r : RE := .seq (litc ' ') C11
@[reducible] def C9r : RE := .seq (litc ']') C10r
@[reducible] def C8 : RE := .seq (.group 4 G4body) C9r
@[reducible] def C7 : RE := .seq (litc '[') C8
@[reducible] def C6 : RE := .seq (litc ' ') C7
@[reducible] def C5 : RE := .seq (.group 3 (.plus nonSpace)) C6
@[reducible] def C4 : RE := .seq (litc ' ') C5
@[reducible] def C3 : RE := .seq (.group 2 (.plus nonSpace)) C4
@[reducible] def C2 : RE := .seq (litc ' ') C3
@[reducible] def C1 : RE := .seq (.group 1 (.plus nonSpace)) C2


/-- The extension of one matcher result by a suffix. -/
def extMap (u : List Char) (p : List Char × List (Nat × List Char)) :
    List Char × List (Nat × List Char) := (p.1 ++ u, p.2)

/-- Like `Sat`, but also recording the capture entries a match of the piece
contributes (most recently closed group first). -/
inductive SatC : RE → List Char → List (Nat × List Char) → Prop
  | eps : SatC .eps [] []
  | cls {c : Char → Bool} {ch : Char} : c ch = true → SatC (.cls c) [ch] []
  | seq {a b : RE} {t u : List Char} {e1 e2 : List (Nat × List Char)} :
      SatC a t e1 → SatC b u e2 → SatC (.seq a b) (t ++ u) (e2 ++ e1)
  | star {c : Char → Bool} {t : List Char} :
      (∀ ch ∈ t, c ch = true) → SatC (.star c) t []
  | plus {c : Char → Bool} {t : List Char} :
      t ≠ [] → (∀ ch ∈ t, c ch = true) → SatC (.plus c) t []
  | group {n : Nat} {r : RE} {t : List Char} {e : List (Nat × List Char)} :
      SatC r t e → SatC (.group n r) t ((n, t) :: e)

/-- The canonical remainder of a record line from the `[` of the timestamp
block onwards (with the method field and everything between endpoint and
closing quote already flattened into `A` and `Q`). -/
@[reducible] def reqTail (t4a : List Char) (sp4 sgn dd1 dd2 dd3 dd4 : Char)
    (A Q : List Char) (S1 S2 S3 : Char) (g9t rest0 : List Char) : List Char :=
  t4a ++ sp4 :: sgn :: dd1 :: dd2 :: dd3 :: dd4 :: ']' :: ' ' :: '"' ::
    (A ++ ' ' :: (Q ++ ' ' :: (S1 :: S2 :: S3 :: ' ' :: (g9t ++ rest0))))


/-! # Helper lemmas -/

theorem mem_of_head?_eq {α : Type} {l : List α} {x : α}
    (h : l.head? = some x) : x ∈ l := by
  cases l with
  | nil => simp at h
  | cons a t => simp at h; simp [h]

theorem mem_dropsDesc {s r : List Char} :
    ∀ {n : Nat}, r ∈ dropsDesc s n → ∃ i, i ≤ n ∧ r = s.drop i := by
  intro n
  induction n with
  | zero =>
    intro h
    refine ⟨0, Nat.le_refl 0, ?_⟩
    simpa [dropsDesc] using h
  | succ n ih =>
    intro h
    rcases List.mem_cons.1 (by simpa [dropsDesc] using h) with h' | h'
    · exact ⟨n + 1, Nat.le_refl _, h'⟩
    · obtain ⟨i, hi, hr⟩ := ih h'
      exact ⟨i, Nat.le_succ_of_le hi, hr⟩

theorem mem_dropsDescPos {s r : List Char} :
    ∀ {n : Nat}, r ∈ dropsDescPos s n → ∃ i, 1 ≤ i ∧ i ≤ n ∧ r = s.drop i := by
  intro n
  induction n with
  | zero => intro h; simp [dropsDescPos] at h
  | succ n ih =>
    intro h
    rcases List.mem_cons.1 (by simpa [dropsDescPos] using h) with h' | h'
    · exact ⟨n + 1, Nat.le_add_left 1 n, Nat.le_refl _, h'⟩
    · obtain ⟨i, h1, hi, hr⟩ := ih h'
      exact ⟨i, h1, Nat.le_succ_of_le hi, hr⟩

theorem take_sat_of_le_takeWhile {c : Char → Bool} {s : List Char} {i : Nat}
    (h : i ≤ (s.takeWhile c).length) : ∀ ch ∈ s.take i, c ch = true := by
  intro ch hch
  have hs : s.take i = (s.takeWhile c).take i := by
    conv_lhs => rw [← List.takeWhile_append_dropWhile (p := c) (l := s)]
    exact List.take_append_of_le_length h
  rw [hs] at hch
  exact List.mem_takeWhile_imp (List.mem_of_mem_take hch)

theorem take_len_of_append {t u : List Char} :
    (t ++ u).take ((t ++ u).length - u.length) = t := by
  simp [List.length_append]

/-- Capture soundness of the backtracking matcher: any enumerated result
consumed a prefix satisfying the pattern, and every capture entry it adds
satisfies the per-group property `P`. -/
theorem matchAll_sound {P : Nat → List Char → Prop} :
    ∀ (r : RE), GroupsP P r → ∀ (s : List Char) caps out,
      out ∈ matchAll r s caps →
      (∀ e ∈ out.2, e ∈ caps ∨ P e.1 e.2) ∧ ∃ t, s = t ++ out.1 ∧ Sat r t := by
  intro r
  induction r with
  | eps =>
    intro _ s caps out hout
    simp [matchAll] at hout
    subst hout
    exact ⟨fun e he => Or.inl he, [], rfl, Sat.eps⟩
  | cls c =>
    intro _ s caps out hout
    cases s with
    | nil => simp [matchAll] at hout
    | cons ch rest =>
      simp only [matchAll] at hout
      by_cases hc : c ch = true
      · simp [hc] at hout
        subst hout
        exact ⟨fun e he => Or.inl he, [ch], rfl, Sat.cls hc⟩
      · simp [hc] at hout
  | seq a b iha ihb =>
    intro hg s caps out hout
    simp only [matchAll, List.mem_flatMap] at hout
    obtain ⟨p, hp, hout⟩ := hout
    obtain ⟨hcapsa, t1, hs1, hsat1⟩ := iha hg.1 s caps p hp
    obtain ⟨hcapsb, t2, hs2, hsat2⟩ := ihb hg.2 p.1 p.2 out hout
    refine ⟨fun e he => ?_, t1 ++ t2, ?_, Sat.seq hsat1 hsat2⟩
    · rcases hcapsb e he with h | h
      · exact hcapsa e h
      · exact Or.inr h
    · rw [hs1, hs2, List.append_assoc]
  | star c =>
    intro _ s caps out hout
    simp only [matchAll, List.mem_map] at hout
    obtain ⟨r', hr', hout⟩ := hout
    obtain ⟨i, hi, hreq⟩ := mem_dropsDesc hr'
    subst hout hreq
    refine ⟨fun e he => Or.inl he, s.take i, (List.take_append_drop i s).symm,
      Sat.star (take_sat_of_le_takeWhile hi)⟩
  | plus c =>
    intro _ s caps out hout
    simp only [matchAll, List.mem_map] at hout
    obtain ⟨r', hr', hout⟩ := hout
    obtain ⟨i, h1, hi, hreq⟩ := mem_dropsDescPos hr'
    subst hout hreq
    refine ⟨fun e he => Or.inl he, s.take i, (List.take_append_drop i s).symm,
      Sat.plus ?_ (take_sat_of_le_takeWhile hi)⟩
    have htw : (s.takeWhile c).length ≤ s.length :=
      (List.takeWhile_sublist c).length_le
    have hslen : 1 ≤ s.length := by omega
    have : (s.take i).length = min i s.length := List.length_take i s
    intro hnil
    rw [hnil] at this
    simp at this
    omega
  | group n r ih =>
    intro hg s caps out hout
    simp only [matchAll, List.mem_map] at hout
    obtain ⟨p, hp, hout⟩ := hout
    obtain ⟨hcaps, t, hs, hsat⟩ := ih hg.2 s caps p hp
    subst hout
    refine ⟨fun e he => ?_, t, hs, Sat.group hsat⟩
    rcases List.mem_cons.1 he with h | h
    · subst h
      refine Or.inr ?_
      have : s.take (s.length - p.1.length) = t := by
        rw [hs]; exact take_len_of_append
      rw [this]
      exact hg.1 t hsat
    · exact hcaps e h

theorem isDigitB_bounds {c : Char} (h : isDigitB c = true) :
    48 ≤ c.toNat ∧ c.toNat ≤ 57 := by
  simp only [isDigitB, Bool.and_eq_true, decide_eq_true_eq] at h
  exact ⟨h.1, h.2⟩

theorem isDigitB_ne_plus {c : Char} (h : isDigitB c = true) : c ≠ '+' := by
  intro heq
  subst heq
  exact absurd h (by decide)

theorem isDigitB_ne_minus {c : Char} (h : isDigitB c = true) : c ≠ '-' := by
  intro heq
  subst heq
  exact absurd h (by decide)

theorem nonSpace_false {c : Char} (h : nonSpace c = true) : isSpaceP c = false := by
  simp only [nonSpace, Bool.not_eq_true'] at h
  exact h

theorem Sat_eps {t : List Char} (h : Sat .eps t) : t = [] := by
  cases h; rfl

theorem Sat_cls {c : Char → Bool} {t : List Char} (h : Sat (.cls c) t) :
    ∃ ch, t = [ch] ∧ c ch = true := by
  cases h with
  | cls hc => exact ⟨_, rfl, hc⟩

theorem Sat_seq {a b : RE} {t : List Char} (h : Sat (.seq a b) t) :
    ∃ u v, t = u ++ v ∧ Sat a u ∧ Sat b v := by
  cases h with
  | seq ha hb => exact ⟨_, _, rfl, ha, hb⟩

theorem Sat_plus {c : Char → Bool} {t : List Char} (h : Sat (.plus c) t) :
    t ≠ [] ∧ ∀ ch ∈ t, c ch = true := by
  cases h with
  | plus hne hall => exact ⟨hne, hall⟩

theorem P_pat_other {n : Nat} {t : List Char} (h8 : n ≠ 8) (h9 : n ≠ 9) :
    P_pat n t :=
  ⟨fun h => absurd h h8, fun h => absurd h h9⟩

theorem groupsP_pattern : GroupsP P_pat APACHE_ACCESS_LOG_PATTERN := by
  simp only [APACHE_ACCESS_LOG_PATTERN, patSeq, List.foldr, GroupsP, and_true, true_and]
  refine ⟨?_, ?_, ?_, ?_, ?_, ?_, ?_, ?_, ?_⟩
  · exact fun t _ => P_pat_other (by decide) (by decide)
  · exact fun t _ => P_pat_other (by decide) (by decide)
  · exact fun t _ => P_pat_other (by decide) (by decide)
  · exact fun t _ => P_pat_other (by decide) (by decide)
  · exact fun t _ => P_pat_other (by decide) (by decide)
  · exact fun t _ => P_pat_other (by decide) (by decide)
  · exact fun t _ => P_pat_other (by decide) (by decide)
  · -- group 8: three digits
    intro t ht
    refine ⟨fun _ => ?_, fun h => absurd h (by decide)⟩
    obtain ⟨u1, v1, rfl, h1, hv1⟩ := Sat_seq ht
    obtain ⟨a, rfl, ha⟩ := Sat_cls h1
    obtain ⟨u2, v2, rfl, h2, hv2⟩ := Sat_seq hv1
    obtain ⟨b, rfl, hb⟩ := Sat_cls h2
    obtain ⟨u3, v3, rfl, h3, hv3⟩ := Sat_seq hv2
    obtain ⟨c, rfl, hc⟩ := Sat_cls h3
    have := Sat_eps hv3
    subst this
    exact ⟨a, b, c, rfl, ha, hb, hc⟩
  · -- group 9: non-empty, non-whitespace
    intro t ht
    refine ⟨fun h => absurd h (by decide), fun _ => Sat_plus ht⟩

theorem dropWhile_eq_self_of_all {s : List Char}
    (h : ∀ ch ∈ s, isSpaceP ch = false) : s.dropWhile isSpaceP = s := by
  cases s with
  | nil => rfl
  | cons a l =>
    rw [List.dropWhile_cons]
    simp [h a (by simp)]

theorem pyStrip_eq_self {s : List Char} (h : ∀ ch ∈ s, isSpaceP ch = false) :
    pyStrip s = s := by
  unfold pyStrip
  rw [dropWhile_eq_self_of_all h,
      dropWhile_eq_self_of_all (fun ch hch => h ch (List.mem_reverse.1 hch)),
      List.reverse_reverse]

theorem pyIntCore_nonneg {s : List Char} {v : Int}
    (hv : pyIntCore s = some v) (hh : s.head? ≠ some '-') : 0 ≤ v := by
  cases s with
  | nil => simp [pyIntCore] at hv
  | cons c rest =>
    simp only [pyIntCore] at hv
    by_cases hp : c = '+'
    · rw [if_pos hp] at hv
      split at hv
      · have : v = (digitsVal rest : Int) := by
          exact (Option.some_injective _ hv).symm
        rw [this]
        exact Int.natCast_nonneg _
      · simp at hv
    · rw [if_neg hp] at hv
      by_cases hm : c = '-'
      · exact absurd (by rw [hm]; rfl) hh
      · rw [if_neg hm] at hv
        split at hv
        · have : v = (digitsVal (c :: rest) : Int) := by
            exact (Option.some_injective _ hv).symm
          rw [this]
          exact Int.natCast_nonneg _
        · simp at hv

theorem digitsVal_three_le {a b c : Char} (ha : isDigitB a = true)
    (hb : isDigitB b = true) (hc : isDigitB c = true) :
    digitsVal [a, b, c] ≤ 999 := by
  obtain ⟨ha1, ha2⟩ := isDigitB_bounds ha
  obtain ⟨hb1, hb2⟩ := isDigitB_bounds hb
  obtain ⟨hc1, hc2⟩ := isDigitB_bounds hc
  simp only [digitsVal, List.foldl]
  omega

theorem pyIntCore_three_digits {a b c : Char} (ha : isDigitB a = true)
    (hb : isDigitB b = true) (hc : isDigitB c = true) :
    pyIntCore [a, b, c] = some ((digitsVal [a, b, c] : Nat) : Int) := by
  have hall : [a, b, c].all isDigitB = true := by simp [ha, hb, hc]
  simp only [pyIntCore, if_neg (isDigitB_ne_plus ha), if_neg (isDigitB_ne_minus ha),
    hall, if_true]

theorem reSearch_caps_P {line rest : List Char} {caps : List (Nat × List Char)}
    (h : reSearch line = some (rest, caps)) : ∀ e ∈ caps, P_pat e.1 e.2 := by
  have hmem : (rest, caps) ∈ matchAll APACHE_ACCESS_LOG_PATTERN line [] :=
    mem_of_head?_eq h
  have hs := matchAll_sound APACHE_ACCESS_LOG_PATTERN groupsP_pattern line [] _ hmem
  intro e he
  rcases hs.1 e he with h' | h'
  · simp at h'
  · exact h'

theorem getGroup_P {caps : List (Nat × List Char)} {n : Nat} {t : List Char}
    (hall : ∀ e ∈ caps, P_pat e.1 e.2) (h : getGroup caps n = some t) :
    P_pat n t := by
  unfold getGroup at h
  cases hf : caps.find? (fun e => e.1 == n) with
  | none => rw [hf] at h; simp at h
  | some e =>
    rw [hf] at h
    simp only [Option.map_some'] at h
    have hmem := List.mem_of_find?_eq_some hf
    have hpred := List.find?_some hf
    have he1 : e.1 = n := by simpa using hpred
    have hP := hall e hmem
    rw [he1] at hP
    have ht : e.2 = t := Option.some_injective _ h
    rw [ht] at hP
    exact hP

/-- Inversion of a successful `parseApacheLogLine`: the record's fields are
the converted capture groups. -/
theorem parse_record_inv {line rest : List Char} {caps : List (Nat × List Char)}
    {r : AccessLogRecord} (hs : reSearch line = some (rest, caps))
    (hp : parseApacheLogLine line = .record r) :
    ∃ size dt code,
      (if (getGroup caps 9).getD [] = ['-'] then some (0 : Int)
        else pyInt ((getGroup caps 9).getD [])) = some size ∧
      parse_apache_time ((getGroup caps 4).getD []) = some dt ∧
      pyInt ((getGroup caps 8).getD []) = some code ∧
      r = { host := (getGroup caps 1).getD [],
            client_identd := (getGroup caps 2).getD [],
            user_id := (getGroup caps 3).getD [], date_time := dt,
            method := (getGroup caps 5).getD [],
            endpoint := (getGroup caps 6).getD [],
            protocol := (getGroup caps 7).getD [], response_code := code,
            content_size := size } := by
  simp only [parseApacheLogLine, hs] at hp
  split at hp
  · simp at hp
  · split at hp
    · simp at hp
    · split at hp
      · simp at hp
      · refine ⟨_, _, _, by assumption, by assumption, by assumption, ?_⟩
        injection hp with h
        exact h.symm

theorem isDigitB_not_space {c : Char} (h : isDigitB c = true) :
    isSpaceP c = false := by
  obtain ⟨h1, _⟩ := isDigitB_bounds h
  by_contra hcon
  rw [Bool.not_eq_false] at hcon
  simp only [isSpaceP, Bool.or_eq_true, decide_eq_true_eq] at hcon
  rcases hcon with ((((h' | h') | h') | h') | h') | h' <;>
    (subst h'; exact absurd h1 (by decide))

/-- Claim C4 (amended): every record's `response_code` comes from a
three-digit capture, so it lies in `[0, 999]` (not `[100, 599]`:
see the counterexample with status `000`). -/
theorem claim4_code_range :
    ∀ (line : List Char) (r : AccessLogRecord),
      parseApacheLogLine line = .record r →
      0 ≤ r.response_code ∧ r.response_code ≤ 999 := by
  intro line r hparse
  cases hs : reSearch line with
  | none =>
    simp only [parseApacheLogLine, hs] at hparse
    exact absurd hparse (by simp)
  | some p =>
    obtain ⟨rest, caps⟩ := p
    obtain ⟨size, dt, code, hsize, hdt, hcode, hr⟩ := parse_record_inv hs hparse
    have hcaps := reSearch_caps_P hs
    cases hg : getGroup caps 8 with
    | none =>
      rw [hg] at hcode
      simp [pyInt, pyStrip, pyIntCore] at hcode
    | some t =>
      rw [hg] at hcode
      simp only [Option.getD_some] at hcode
      obtain ⟨a, b, c, rfl, ha, hb, hc⟩ := (getGroup_P hcaps hg).1 rfl
      have hdig : ∀ ch ∈ [a, b, c], isSpaceP ch = false := by
        intro ch hch
        simp only [List.mem_cons, List.not_mem_nil, or_false] at hch
        rcases hch with rfl | rfl | rfl
        · exact isDigitB_not_space ha
        · exact isDigitB_not_space hb
        · exact isDigitB_not_space hc
      rw [pyInt, pyStrip_eq_self hdig, pyIntCore_three_digits ha hb hc] at hcode
      have hcv : code = ((digitsVal [a, b, c] : Nat) : Int) :=
        (Option.some_injective _ hcode).symm
      have hle := digitsVal_three_le ha hb hc
      have hrc : r.response_code = code := by rw [hr]
      rw [hrc, hcv]
      constructor
      · exact Int.natCast_nonneg _
      · exact_mod_cast hle

/-- Claim C4 witness: the bound holds at a concrete parsed line. -/
theorem claim4_code_range_witness :
    0 ≤ goodRec.response_code ∧ goodRec.response_code ≤ 999 :=
  claim4_code_range goodLine goodRec (by decide)

/-- Claim C3 (amended): a literal `-` size field parses to `content_size = 0`,
and the content size is non-negative whenever the size field does not begin
with a `-` sign.  (Size fields like `-7` do produce negative sizes: see the
counterexample.) -/
theorem claim3_size_normalization :
    ∀ (line : List Char) (r : AccessLogRecord),
      parseApacheLogLine line = .record r →
      (sizeField line = some ['-'] → r.content_size = 0) ∧
      (∀ f, sizeField line = some f → f.head? ≠ some '-' → 0 ≤ r.content_size) := by
  intro line r hparse
  cases hs : reSearch line with
  | none =>
    simp only [parseApacheLogLine, hs] at hparse
    exact absurd hparse (by simp)
  | some p =>
    obtain ⟨rest, caps⟩ := p
    obtain ⟨size, dt, code, hsize, hdt, hcode, hr⟩ := parse_record_inv hs hparse
    have hcaps := reSearch_caps_P hs
    have hsf : sizeField line = getGroup caps 9 := by
      simp [sizeField, hs]
    have hcs : r.content_size = size := by rw [hr]
    constructor
    · intro hdash
      rw [hsf] at hdash
      rw [hdash] at hsize
      simp only [Option.getD_some, if_pos rfl] at hsize
      have : (0 : Int) = size := Option.some_injective _ hsize
      rw [hcs, ← this]
    · intro f hf hhead
      rw [hsf] at hf
      rw [hf] at hsize
      simp only [Option.getD_some] at hsize
      by_cases hdash : f = ['-']
      · rw [if_pos hdash] at hsize
        have : (0 : Int) = size := Option.some_injective _ hsize
        rw [hcs, ← this]
      · rw [if_neg hdash] at hsize
        have hP := (getGroup_P hcaps hf).2 rfl
        have hall : ∀ ch ∈ f, isSpaceP ch = false :=
          fun ch hch => nonSpace_false (hP.2 ch hch)
        rw [pyInt, pyStrip_eq_self hall] at hsize
        rw [hcs]
        exact pyIntCore_nonneg hsize hhead

/-- Claim C3 witness: the amended statement applied at two concrete lines,
one with a literal `-` size field and one with size field `7`. -/
theorem claim3_size_normalization_witness :
    dashRec.content_size = 0 ∧ (0 : Int) ≤ goodRec.content_size :=
  ⟨(claim3_size_normalization dashLine dashRec (by decide)).1 (by decide),
   (claim3_size_normalization goodLine goodRec (by decide)).2 (strL "7")
     (by decide) (by decide)⟩

/-- Claim C1: the parser is not total.  On this regex-matching line the size
field is `abc`, so `long('abc')` raises `ValueError` inside
`parseApacheLogLine` instead of returning a `ParseFailure` value. -/
theorem claim1_parser_raises : parseApacheLogLine c1Line = .error := by decide

/-- Claim C2 counterexample: one input line that yields neither an
`AccessLogRecord` nor a `ParseFailure` - the whole `parseLogs` run raises. -/
theorem claim2_counterexample : parseLogs [c2BadLine] = none := by decide

theorem filterMap_split_length :
    ∀ (parsed : List ParseOutcome),
      (∀ o ∈ parsed, o ≠ ParseOutcome.error) →
      (parsed.filterMap (fun o => match o with
          | .record r => some r | _ => none)).length +
      (parsed.filterMap (fun o => match o with
          | .failure l => some l | _ => none)).length = parsed.length := by
  intro parsed
  induction parsed with
  | nil => intro _; rfl
  | cons o t ih =>
    intro h
    have ht := ih (fun x hx => h x (List.mem_cons_of_mem o hx))
    cases o with
    | record r => simp [List.filterMap_cons]; omega
    | failure l => simp [List.filterMap_cons]; omega
    | error => exact absurd rfl (h .error (by simp))

/-- Claim C2 (amended): whenever `parseLogs` completes without raising,
the record count plus the failure count equals the input line count. -/
theorem claim2_reconciliation :
    ∀ (lines : List (List Char)) (out : List AccessLogRecord × List (List Char)),
      parseLogs lines = some out →
      out.1.length + out.2.length = lines.length := by
  intro lines out h
  simp only [parseLogs] at h
  split at h
  · simp at h
  · rename_i hany
    have hout := Option.some_injective _ h
    simp only [List.any_eq_true, decide_eq_true_eq, not_exists, not_and] at hany
    have := filterMap_split_length (lines.map parseApacheLogLine) hany
    rw [← hout]
    simpa using this

/-- Claim C2 witness: reconciliation at a concrete one-line input. -/
theorem claim2_reconciliation_witness :
    ([goodRec] : List AccessLogRecord).length +
      ([] : List (List Char)).length = [goodLine].length :=
  claim2_reconciliation [goodLine] ([goodRec], []) (by decide)

/-- Claim C3 counterexample: a regex-matching line with size field `-7`
parses to a record with negative `content_size`. -/
theorem claim3_counterexample :
    parseApacheLogLine negSizeLine = .record negSizeRec ∧
    negSizeRec.content_size < 0 := by decide

/-- Claim C4 counterexample: a line with status field `000` parses to a
record whose `response_code` is 0, outside `[100, 599]`. -/
theorem claim4_counterexample :
    parseApacheLogLine statusZeroLine = .record statusZeroRec ∧
    ¬(100 ≤ statusZeroRec.response_code ∧ statusZeroRec.response_code ≤ 599) := by
  decide

/-! ## Sorting and grouping lemmas -/

theorem insertByCountDesc_perm {K : Type} (p : K × Nat) :
    ∀ (l : List (K × Nat)), List.Perm (insertByCountDesc p l) (p :: l) := by
  intro l
  induction l with
  | nil => simp [insertByCountDesc]
  | cons q qs ih =>
    simp only [insertByCountDesc]
    split
    · exact ((ih.cons q).trans (List.Perm.swap p q qs))
    · exact List.Perm.refl _

theorem sortByCountDesc_perm {K : Type} :
    ∀ (l : List (K × Nat)), List.Perm (sortByCountDesc l) l := by
  intro l
  induction l with
  | nil => exact List.Perm.refl _
  | cons p t ih =>
    exact (insertByCountDesc_perm p (sortByCountDesc t)).trans (ih.cons p)

theorem insertByCountDesc_pairwise {K : Type} (p : K × Nat) :
    ∀ (l : List (K × Nat)),
      l.Pairwise (fun a b => b.2 ≤ a.2) →
      (insertByCountDesc p l).Pairwise (fun a b => b.2 ≤ a.2) := by
  intro l
  induction l with
  | nil => intro _; simp [insertByCountDesc]
  | cons q qs ih =>
    intro h
    rw [List.pairwise_cons] at h
    simp only [insertByCountDesc]
    split
    · rename_i hle
      rw [List.pairwise_cons]
      constructor
      · intro x hx
        have hx' : x ∈ p :: qs := (insertByCountDesc_perm p qs).mem_iff.1 hx
        rcases List.mem_cons.1 hx' with rfl | hx''
        · exact hle
        · exact h.1 x hx''
      · exact ih h.2
    · rename_i hgt
      rw [List.pairwise_cons]
      constructor
      · intro x hx
        rcases List.mem_cons.1 hx with rfl | hx'
        · omega
        · have := h.1 x hx'
          omega
      · exact List.pairwise_cons.2 h
  
theorem sortByCountDesc_pairwise {K : Type} :
    ∀ (l : List (K × Nat)),
      (sortByCountDesc l).Pairwise (fun a b => b.2 ≤ a.2) := by
  intro l
  induction l with
  | nil => simp [sortByCountDesc]
  | cons p t ih => exact insertByCountDesc_pairwise p _ ih

theorem mem_keys_insertAdd {K : Type} [DecidableEq K] {x k : K} {v : Nat} :
    ∀ {acc : List (K × Nat)},
      x ∈ (insertAdd acc k v).map Prod.fst ↔ x ∈ acc.map Prod.fst ∨ x = k := by
  intro acc
  induction acc with
  | nil => simp [insertAdd]
  | cons q qs ih =>
    simp only [insertAdd]
    split
    · rename_i heq
      subst heq
      simp only [List.map_cons, List.mem_cons]
      tauto
    · simp only [List.map_cons, List.mem_cons, ih]
      tauto

theorem insertAdd_keys_nodup {K : Type} [DecidableEq K] {k : K} {v : Nat} :
    ∀ {acc : List (K × Nat)},
      (acc.map Prod.fst).Nodup → ((insertAdd acc k v).map Prod.fst).Nodup := by
  intro acc
  induction acc with
  | nil => intro _; simp [insertAdd]
  | cons q qs ih =>
    intro h
    simp only [List.map_cons, List.nodup_cons] at h
    simp only [insertAdd]
    split
    · simp only [List.map_cons, List.nodup_cons]
      exact h
    · rename_i hne
      simp only [List.map_cons, List.nodup_cons]
      constructor
      · intro hc
        rcases mem_keys_insertAdd.1 hc with h' | h'
        · exact h.1 h'
        · exact hne h'.symm
      · exact ih h.2

theorem reduceByKeyAdd_keys_nodup {K : Type} [DecidableEq K]
    (pairs : List (K × Nat)) : ((reduceByKeyAdd pairs).map Prod.fst).Nodup := by
  have hgen : ∀ (l : List (K × Nat)) (acc : List (K × Nat)),
      (acc.map Prod.fst).Nodup →
      ((l.foldl (fun acc p => insertAdd acc p.1 p.2) acc).map Prod.fst).Nodup := by
    intro l
    induction l with
    | nil => intro acc h; exact h
    | cons p t ih =>
      intro acc h
      exact ih _ (insertAdd_keys_nodup h)
  exact hgen pairs [] (by simp)

/-- Claim C5: for every record stream and every `k`, `takeOrdered k` over the
endpoint counts is a subset of the endpoint group-count of size
`min k (number of distinct keys)`, and every count in the result dominates
every count of a key left out. -/
theorem claim5_topk_subset :
    ∀ (logs : List AccessLogRecord) (num : Int),
      (∀ p ∈ topEndpoints num logs, p ∈ endpointCounts logs) ∧
      (topEndpoints num logs).length =
        min num.toNat (endpointCounts logs).length ∧
      ((endpointCounts logs).map Prod.fst).Nodup ∧
      (∀ p ∈ topEndpoints num logs, ∀ q ∈ endpointCounts logs,
        q.1 ∉ (topEndpoints num logs).map Prod.fst → q.2 ≤ p.2) := by
  intro logs num
  have hperm := sortByCountDesc_perm (endpointCounts logs)
  have hpair := sortByCountDesc_pairwise (endpointCounts logs)
  refine ⟨?_, ?_, reduceByKeyAdd_keys_nodup _, ?_⟩
  · intro p hp
    exact hperm.mem_iff.1 (List.mem_of_mem_take hp)
  · simp only [topEndpoints, takeOrdered, List.length_take, hperm.length_eq]
  · intro p hp q hq hqnot
    have hq' : q ∈ sortByCountDesc (endpointCounts logs) := hperm.mem_iff.2 hq
    rw [← List.take_append_drop num.toNat (sortByCountDesc (endpointCounts logs))]
      at hq'
    rcases List.mem_append.1 hq' with hq'' | hq''
    · exact absurd (List.mem_map_of_mem Prod.fst hq'') hqnot
    · have hpair2 : (List.take num.toNat (sortByCountDesc (endpointCounts logs)) ++
          List.drop num.toNat (sortByCountDesc (endpointCounts logs))).Pairwise
          (fun a b => b.2 ≤ a.2) := by
        rw [List.take_append_drop]
        exact hpair
      exact (List.pairwise_append.1 hpair2).2.2 p hp q hq''

/-- Claim C5 witness: concrete instance with three records and `k = 1`. -/
theorem claim5_topk_subset_witness :
    (topEndpoints 1 [recA, recB, recC]).length =
      min (Int.toNat 1) (endpointCounts [recA, recB, recC]).length ∧
    (strL "/b", 1).2 ≤ (strL "/a", 2).2 :=
  ⟨(claim5_topk_subset [recA, recB, recC] 1).2.1,
   (claim5_topk_subset [recA, recB, recC] 1).2.2.2 (strL "/a", 2) (by decide)
     (strL "/b", 1) (by decide) (by decide)⟩

/-! ## Merge lemmas for partitioned aggregation -/

theorem foldl_op_assoc {f : Int → Int → Int}
    (hf : ∀ x y z, f (f x y) z = f x (f y z)) :
    ∀ (l : List Int) (a b : Int), l.foldl f (f a b) = f a (l.foldl f b) := by
  intro l
  induction l with
  | nil => intro a b; rfl
  | cons c t ih =>
    intro a b
    simp only [List.foldl_cons]
    rw [hf a b c, ih a (f b c)]

theorem reduce_append {f : Int → Int → Int}
    (hf : ∀ x y z, f (f x y) z = f x (f y z)) :
    ∀ (a b : List Int),
      (match a ++ b with
       | [] => none
       | x :: xs => some (xs.foldl f x)) =
      optMerge f
        (match a with | [] => none | x :: xs => some (xs.foldl f x))
        (match b with | [] => none | x :: xs => some (xs.foldl f x)) := by
  intro a b
  cases a with
  | nil => simp [optMerge]
  | cons x xs =>
    cases b with
    | nil => simp [optMerge]
    | cons y ys =>
      simp only [List.cons_append, optMerge]
      rw [List.foldl_append]
      simp only [List.foldl_cons]
      rw [foldl_op_assoc hf ys (xs.foldl f x) y]

theorem lookupCount_cons {K : Type} [DecidableEq K]
    (k' : K) (v' : Nat) (rest : List (K × Nat)) (k : K) :
    lookupCount ((k', v') :: rest) k =
      if k' = k then v' else lookupCount rest k := by
  by_cases h : k' = k
  · simp [lookupCount, List.find?_cons, h]
  · simp [lookupCount, List.find?_cons, h]

theorem lookupCount_insertAdd {K : Type} [DecidableEq K]
    (k0 k : K) (v : Nat) :
    ∀ (acc : List (K × Nat)),
      lookupCount (insertAdd acc k0 v) k =
        lookupCount acc k + (if k0 = k then v else 0) := by
  intro acc
  induction acc with
  | nil =>
    by_cases h : k0 = k
    · simp [insertAdd, lookupCount, List.find?_cons, h]
    · simp [insertAdd, lookupCount, List.find?_cons, h]
  | cons q qs ih =>
    obtain ⟨k', v'⟩ := q
    simp only [insertAdd]
    split
    · rename_i heq
      subst heq
      by_cases h : k0 = k
      · simp [lookupCount_cons, h]
      · simp [lookupCount_cons, h]
    · rename_i hne
      rw [lookupCount_cons, lookupCount_cons]
      by_cases h : k' = k
      · subst h
        have : ¬ k0 = k' := hne
        simp [this]
      · simp [h, ih]

theorem lookupCount_foldl {K : Type} [DecidableEq K] (k : K) :
    ∀ (pairs : List (K × Nat)) (acc : List (K × Nat)),
      lookupCount (pairs.foldl (fun acc p => insertAdd acc p.1 p.2) acc) k =
        lookupCount acc k + sumVals pairs k := by
  intro pairs
  induction pairs with
  | nil => intro acc; simp [sumVals]
  | cons p t ih =>
    intro acc
    simp only [List.foldl_cons]
    rw [ih (insertAdd acc p.1 p.2), lookupCount_insertAdd]
    have hsv : sumVals (p :: t) k = (if p.1 = k then p.2 else 0) + sumVals t k := by
      by_cases h : p.1 = k
      · simp [sumVals, List.filter_cons, h]
      · simp [sumVals, List.filter_cons, h]
    rw [hsv]
    omega

theorem lookupCount_reduceByKeyAdd {K : Type} [DecidableEq K]
    (pairs : List (K × Nat)) (k : K) :
    lookupCount (reduceByKeyAdd pairs) k = sumVals pairs k := by
  rw [reduceByKeyAdd, lookupCount_foldl]
  simp [lookupCount]

theorem sumVals_append {K : Type} [DecidableEq K]
    (p1 p2 : List (K × Nat)) (k : K) :
    sumVals (p1 ++ p2) k = sumVals p1 k + sumVals p2 k := by
  simp [sumVals, List.filter_append]

/-- Claim C6: count, sum, min, max and group-count aggregations merge:
aggregating two pieces independently and combining the partials agrees with
aggregating the concatenation. -/
theorem claim6_merge_associativity :
    ∀ (a b : List AccessLogRecord),
      rddCount (a ++ b) = rddCount a + rddCount b ∧
      rddSum? (content_sizes (a ++ b)) =
        optMerge (fun x y => x + y)
          (rddSum? (content_sizes a)) (rddSum? (content_sizes b)) ∧
      rddMin? (content_sizes (a ++ b)) =
        optMerge min (rddMin? (content_sizes a)) (rddMin? (content_sizes b)) ∧
      rddMax? (content_sizes (a ++ b)) =
        optMerge max (rddMax? (content_sizes a)) (rddMax? (content_sizes b)) ∧
      ∀ (code : Int),
        lookupCount (responseCodeToCount (a ++ b)) code =
          lookupCount (responseCodeToCount a) code +
            lookupCount (responseCodeToCount b) code := by
  intro a b
  have hcs : content_sizes (a ++ b) = content_sizes a ++ content_sizes b := by
    simp [content_sizes]
  refine ⟨by simp [rddCount], ?_, ?_, ?_, ?_⟩
  · rw [hcs]
    exact reduce_append (by intro x y z; omega) _ _
  · rw [hcs]
    exact reduce_append (fun x y z => min_assoc x y z) _ _
  · rw [hcs]
    exact reduce_append (fun x y z => max_assoc x y z) _ _
  · intro code
    have hmap : (a ++ b).map (fun log => (log.response_code, 1)) =
        a.map (fun log => (log.response_code, 1)) ++
        b.map (fun log => (log.response_code, 1)) := by simp
    rw [responseCodeToCount, responseCodeToCount, responseCodeToCount, hmap,
      lookupCount_reduceByKeyAdd, lookupCount_reduceByKeyAdd,
      lookupCount_reduceByKeyAdd, sumVals_append]

/-! ## Membership lemmas for distinct, group-by, join, sort-by-key -/

theorem mem_pyDistinct {α : Type} [DecidableEq α] {x : α} :
    ∀ (l : List α), x ∈ pyDistinct l ↔ x ∈ l := by
  have hgen : ∀ (l acc : List α),
      x ∈ l.foldl (fun acc y => if y ∈ acc then acc else acc ++ [y]) acc ↔
        x ∈ acc ∨ x ∈ l := by
    intro l
    induction l with
    | nil => intro acc; simp
    | cons y t ih =>
      intro acc
      simp only [List.foldl_cons]
      by_cases hy : y ∈ acc
      · rw [if_pos hy, ih]
        constructor
        · intro h
          rcases h with h | h
          · exact Or.inl h
          · exact Or.inr (List.mem_cons_of_mem y h)
        · intro h
          rcases h with h | h
          · exact Or.inl h
          · rcases List.mem_cons.1 h with rfl | h'
            · exact Or.inl hy
            · exact Or.inr h'
      · rw [if_neg hy, ih]
        simp only [List.mem_append, List.mem_singleton, List.mem_cons]
        tauto
  intro l
  rw [pyDistinct, hgen]
  simp

theorem mem_rddJoin {K α β : Type} [DecidableEq K]
    {a : List (K × α)} {b : List (K × β)} {k : K} {v : α} {w : β}
    (h : (k, (v, w)) ∈ rddJoin a b) : (k, v) ∈ a ∧ (k, w) ∈ b := by
  simp only [rddJoin, List.mem_flatMap] at h
  obtain ⟨p, hp, hmem⟩ := h
  simp only [List.mem_map] at hmem
  obtain ⟨q, hq, heq⟩ := hmem
  have hk : p.1 = k := congrArg Prod.fst heq
  have hvw : (p.2, q.2) = (v, w) := congrArg Prod.snd heq
  have hq' := (List.mem_filter.1 hq).1
  have hqk : q.1 = p.1 := by
    have := (List.mem_filter.1 hq).2
    exact of_decide_eq_true this
  have hv : v = p.2 := (congrArg Prod.fst hvw).symm
  have hw : w = q.2 := (congrArg Prod.snd hvw).symm
  constructor
  · rw [← hk, hv]
    exact (Prod.mk.eta (p := p)) ▸ hp
  · rw [hw, ← hk, ← hqk]
    exact (Prod.mk.eta (p := q)) ▸ hq'

theorem mem_groupByKey {K α : Type} [DecidableEq K]
    {pairs : List (K × α)} {k : K} {vs : List α}
    (h : (k, vs) ∈ groupByKey pairs) :
    vs = (pairs.filter (fun p => decide (p.1 = k))).map (fun p => p.2) := by
  simp only [groupByKey, List.mem_map] at h
  obtain ⟨k0, hk0, heq⟩ := h
  have h1 : k0 = k := congrArg Prod.fst heq
  have h2 := congrArg Prod.snd heq
  simp only at h2
  rw [← h2, h1]

theorem insertByKeyInt_perm {α : Type} (p : Int × α) :
    ∀ (l : List (Int × α)), List.Perm (insertByKeyInt p l) (p :: l) := by
  intro l
  induction l with
  | nil => simp [insertByKeyInt]
  | cons q qs ih =>
    simp only [insertByKeyInt]
    split
    · exact ((ih.cons q).trans (List.Perm.swap p q qs))
    · exact List.Perm.refl _

theorem sortByKeyInt_perm {α : Type} :
    ∀ (l : List (Int × α)), List.Perm (sortByKeyInt l) l := by
  intro l
  induction l with
  | nil => exact List.Perm.refl _
  | cons p t ih =>
    exact (insertByKeyInt_perm p (sortByKeyInt t)).trans (ih.cons p)

theorem find?_of_mem_nodup {K : Type} [DecidableEq K] {k : K} {v : Nat} :
    ∀ {l : List (K × Nat)}, (l.map Prod.fst).Nodup → (k, v) ∈ l →
      l.find? (fun e => decide (e.1 = k)) = some (k, v) := by
  intro l
  induction l with
  | nil => intro _ h; simp at h
  | cons q qs ih =>
    intro hnd hmem
    simp only [List.map_cons, List.nodup_cons] at hnd
    rcases List.mem_cons.1 hmem with rfl | hmem'
    · simp [List.find?_cons]
    · have hne : ¬ q.1 = k := by
        intro hc
        apply hnd.1
        rw [hc]
        exact List.mem_map_of_mem Prod.fst hmem'
      rw [List.find?_cons]
      simp only [hne, decide_False]
      exact ih hnd.2 hmem'

theorem mem_reduceByKeyAdd_val {K : Type} [DecidableEq K]
    {pairs : List (K × Nat)} {k : K} {v : Nat}
    (h : (k, v) ∈ reduceByKeyAdd pairs) : v = sumVals pairs k := by
  have hfind := find?_of_mem_nodup (reduceByKeyAdd_keys_nodup pairs) h
  have : lookupCount (reduceByKeyAdd pairs) k = v := by
    simp [lookupCount, hfind]
  rw [← this, lookupCount_reduceByKeyAdd]

theorem sumVals_map_one {α K : Type} [DecidableEq K] (key : α → K) (k : K) :
    ∀ (l : List α),
      sumVals (l.map (fun r => (key r, 1))) k =
        (l.filter (fun r => decide (key r = k))).length := by
  intro l
  induction l with
  | nil => simp [sumVals]
  | cons r t ih =>
    simp only [List.map_cons, List.filter_cons]
    by_cases h : key r = k
    · have hsv : sumVals ((key r, 1) :: t.map (fun x => (key x, 1))) k =
          1 + sumVals (t.map (fun x => (key x, 1))) k := by
        simp [sumVals, List.filter_cons, h]
      rw [hsv, ih]
      simp [h]
      omega
    · have hsv : sumVals ((key r, 1) :: t.map (fun x => (key x, 1))) k =
          sumVals (t.map (fun x => (key x, 1))) k := by
        simp [sumVals, List.filter_cons, h]
      rw [hsv, ih]
      simp [h]

theorem filter_map_host_comm (d : Int) :
    ∀ (logs : List AccessLogRecord),
      ((logs.map (fun log => (log.date_time.day, log.host))).filter
        (fun p => decide (p.1 = d))).map (fun p => p.2) =
      (logs.filter (fun log => decide (log.date_time.day = d))).map
        (fun log => log.host) := by
  intro logs
  induction logs with
  | nil => rfl
  | cons r t ih =>
    simp only [List.map_cons, List.filter_cons]
    by_cases h : r.date_time.day = d
    · simp only [h, decide_True]
      simp [ih]
    · simp only [h, decide_False]
      exact ih

/-- Claim C7 (amended): the content-size mean is Python floor division of the
sum by the count, which agrees with truncating division exactly when the sum
is non-negative; and each per-day value of `avgDailyReqPerHost` is the day's
request total divided by the day's unique-host count with truncating (`Nat`)
division. -/
theorem claim7_division_semantics :
    (∀ (sizes : List Int) (v : Int), contentSizeAvg? sizes = some v →
      v = Int.fdiv (sizes.foldl (fun a b => a + b) 0) sizes.length) ∧
    (∀ (s : Int) (n : Nat), 0 ≤ s → Int.fdiv s n = Int.tdiv s n) ∧
    (∀ (logs : List AccessLogRecord) (d : Int) (v : Nat),
      (d, v) ∈ avgDailyReqPerHost logs →
      v = reqOnDay logs d / uniqHostsOnDay logs d) := by
  refine ⟨?_, ?_, ?_⟩
  · intro sizes v hv
    cases sizes with
    | nil => simp [contentSizeAvg?, rddSum?] at hv
    | cons x xs =>
      simp only [contentSizeAvg?, rddSum?, Option.map_some'] at hv
      have hv' : v = Int.fdiv (xs.foldl (fun a b => a + b) x)
          (rddCount (x :: xs)) := (Option.some_injective _ hv).symm
      rw [hv']
      have : (x :: xs).foldl (fun a b => a + b) 0 =
          xs.foldl (fun a b => a + b) x := by
        simp only [List.foldl_cons]
        norm_num
      rw [this]
      rfl
  · intro s n hs
    exact Int.fdiv_eq_tdiv hs (by exact_mod_cast Int.natCast_nonneg n)
  · intro logs d v hmem
    simp only [avgDailyReqPerHost, List.mem_map] at hmem
    obtain ⟨p, hp, heq⟩ := hmem
    obtain ⟨pd, px, py⟩ := p
    have hd : pd = d := congrArg Prod.fst heq
    have hv : px / py = v := congrArg Prod.snd heq
    subst hd
    have hp' : (pd, (px, py)) ∈ rddJoin (dayAndHostTuple logs) (dailyHosts logs) :=
      (sortByKeyInt_perm _).mem_iff.1 hp
    obtain ⟨hday, hhost⟩ := mem_rddJoin hp'
    -- requests per day
    have hx : px = reqOnDay logs pd := by
      have h1 : (pd, px) ∈ reduceByKeyAdd
          (logs.map (fun log => (log.date_time.day, 1))) :=
        (mem_pyDistinct _).1 hday
      have h2 := mem_reduceByKeyAdd_val h1
      rw [h2, sumVals_map_one (fun log => log.date_time.day) pd logs]
      rfl
    -- unique hosts per day
    have hy : py = uniqHostsOnDay logs pd := by
      have h1 : (pd, py) ∈ (groupByKey
          (logs.map (fun log => (log.date_time.day, log.host)))).map
          (fun p => (p.1, (pyDistinct p.2).length)) :=
        (sortByKeyInt_perm _).mem_iff.1 hhost
      simp only [List.mem_map] at h1
      obtain ⟨g, hg, hgeq⟩ := h1
      have hg1 : g.1 = pd := congrArg Prod.fst hgeq
      have hg2 : (pyDistinct g.2).length = py := congrArg Prod.snd hgeq
      have hg3 : (g.1, g.2) ∈ groupByKey
          (logs.map (fun log => (log.date_time.day, log.host))) :=
        (Prod.mk.eta (p := g)) ▸ hg
      have hvs := mem_groupByKey hg3
      rw [← hg2, hvs, hg1, filter_map_host_comm]
      rfl
    rw [← hv, hx, hy]

/-- Claim C7 counterexample: a stream reachable from the parser whose
content-size sum is negative; the code's floor division gives `-3` while
truncating division gives `-2`. -/
theorem claim7_counterexample :
    parseLogs [negSizeLine, sizeTwoLine] = some ([negSizeRec, sizeTwoRec], []) ∧
    contentSizeAvg? (content_sizes [negSizeRec, sizeTwoRec]) = some (-3) ∧
    Int.tdiv ((-7) + 2) 2 = -2 ∧ ¬ ((-3 : Int) = -2) := by decide

/-- Claim C7 witness: the amended statement applied at concrete streams. -/
theorem claim7_division_semantics_witness :
    ((7 : Int) = Int.fdiv (7 + 2) 2 → False) ∧
    (1 : Nat) = reqOnDay [recA, recB, recC] 1 / uniqHostsOnDay [recA, recB, recC] 1 := by
  constructor
  · intro h
    exact absurd h (by decide)
  · exact claim7_division_semantics.2.2 [recA, recB, recC] 1 1 (by decide)

/-- Claim C8 counterexample: `takeOrdered` with a non-positive `k` silently
returns the empty list (`heapq.nsmallest` semantics); no `InvalidArgument`
error is raised - the function is total and never fails. -/
theorem claim8_counterexample : topEndpoints (-1) [recA] = [] := by decide

/-- Claim C8 (amended): for every record stream, `top_k` with `k <= 0`
silently returns the empty result. -/
theorem claim8_nonpos_k_empty :
    ∀ (num : Int) (logs : List AccessLogRecord), num ≤ 0 →
      topEndpoints num logs = [] := by
  intro num logs h
  simp only [topEndpoints, takeOrdered]
  rw [Int.toNat_of_nonpos h]
  exact List.take_zero _

/-- Claim C8 witness: the amended statement at a concrete stream and `k`. -/
theorem claim8_nonpos_k_empty_witness : topEndpoints (-5) [recA, recB] = [] :=
  claim8_nonpos_k_empty (-5) [recA, recB] (by decide)

/-! ## Evaluation lemmas for the trailing-whitespace star -/

theorem tw_rep_quote (m : Nat) (xs : List Char) :
    List.takeWhile isSpaceP (List.replicate m ' ' ++ '"' :: xs) =
      List.replicate m ' ' := by
  induction m with
  | zero => simp +decide [List.takeWhile_cons, isSpaceP]
  | succ k ih =>
    rw [List.replicate_succ, List.cons_append, List.takeWhile_cons]
    simp only [show isSpaceP ' ' = true from by decide, if_true, ih,
      List.replicate_succ]

theorem flatMap_dropsDesc_nil {α : Type} {f : List Char → List α} {s : List Char} :
    ∀ {n : Nat}, (∀ j, j ≤ n → f (s.drop j) = []) →
      (dropsDesc s n).flatMap f = [] := by
  intro n
  induction n with
  | zero =>
    intro h
    simp only [dropsDesc, List.flatMap_cons, List.flatMap_nil, List.append_nil]
    simpa using h 0 (Nat.le_refl 0)
  | succ k ih =>
    intro h
    simp only [dropsDesc, List.flatMap_cons]
    rw [h (k + 1) (Nat.le_refl _), ih (fun j hj => h j (Nat.le_succ_of_le hj))]
    rfl

theorem flatMap_dropsDesc_head {α : Type} {f : List Char → List α} {s : List Char}
    {n : Nat} (h : ∀ j, j < n → f (s.drop j) = []) :
    (dropsDesc s n).flatMap f = f (s.drop n) := by
  cases n with
  | zero => simp [dropsDesc]
  | succ k =>
    simp only [dropsDesc, List.flatMap_cons]
    rw [flatMap_dropsDesc_nil (fun j hj => h j (Nat.lt_succ_of_le hj))]
    simp

theorem matchAll_seq_star_spaces (B : RE)
    (hsp : ∀ (l : List Char) (caps' : List (Nat × List Char)),
      matchAll B (' ' :: l) caps' = [])
    (m : Nat) (xs : List Char) (caps : List (Nat × List Char)) :
    matchAll (.seq (.star isSpaceP) B)
        (List.replicate m ' ' ++ '"' :: xs) caps =
      matchAll B ('"' :: xs) caps := by
  simp only [matchAll, tw_rep_quote, List.length_replicate]
  have hmap : ((dropsDesc (List.replicate m ' ' ++ '"' :: xs) m).map
      (fun r => (r, caps))).flatMap
      (fun p => matchAll B p.1 p.2) =
      (dropsDesc (List.replicate m ' ' ++ '"' :: xs) m).flatMap
      (fun r => matchAll B r caps) := by
    rw [List.flatMap_map]
  rw [hmap, flatMap_dropsDesc_head]
  · rw [List.drop_left' (List.length_replicate m ' ')]
  · intro j hj
    have hdrop : (List.replicate m ' ' ++ '"' :: xs).drop j =
        List.replicate (m - j) ' ' ++ '"' :: xs := by
      rw [List.drop_append_of_le_length (by simp; omega), List.drop_replicate]
    rw [hdrop]
    have hm : m - j = (m - j - 1) + 1 := by omega
    rw [hm, List.replicate_succ, List.cons_append]
    exact hsp _ _

theorem tw_nonspace_rep (k : Nat) (xs : List Char) :
    List.takeWhile nonSpace (List.replicate (k + 1) ' ' ++ xs) = [] := by
  rw [List.replicate_succ]
  simp +decide [List.takeWhile_cons, nonSpace, isSpaceP]

theorem c9_search_succ (m : Nat) : reSearch (c9Line (m + 1)) = some ([], c9Caps) := by
  have hpre : c9Pre = ['h', ' ', '-', ' ', '-', ' ', '[', '0', '1', '/', 'A', 'u', 'g', '/', '1', '9', '9', '5', ':', '0', '0', ':', '0', '0', ':', '0', '1', ' ', '-', '0', '4', '0', '0', ']', ' ', '\"', 'G', 'E', 'T', ' ', '/', 'p', ' ', 'H', 'T', 'T', 'P', '/', '1', '.', '0'] := by decide
  have hpost : c9Post = ['\"', ' ', '2', '0', '0', ' ', '7'] := by decide
  have hline : c9Line (m + 1) =
      ['h', ' ', '-', ' ', '-', ' ', '[', '0', '1', '/', 'A', 'u', 'g', '/', '1', '9', '9', '5', ':', '0', '0', ':', '0', '0', ':', '0', '1', ' ', '-', '0', '4', '0', '0', ']', ' ', '\"', 'G', 'E', 'T', ' ', '/', 'p', ' ', 'H', 'T', 'T', 'P', '/', '1', '.', '0'] ++
      (List.replicate (m + 1) ' ' ++ ['\"', ' ', '2', '0', '0', ' ', '7']) := by
    rw [c9Line, hpre, hpost, List.append_assoc]
  rw [hline]
  simp +decide [reSearch, APACHE_ACCESS_LOG_PATTERN, patSeq, List.foldr, litc,
    matchAll, dropsDesc, dropsDescPos, List.takeWhile_cons, tw_nonspace_rep,
    c9Caps, strL]

/-- Claim C9: a request line with any number of trailing spaces before the
closing quote still parses (to the same record), and a request line with no
protocol token parses with `protocol` equal to the empty string. -/
theorem claim9_request_line_tolerance :
    (∀ n : Nat, parseApacheLogLine (c9Line n) = .record c9Rec) ∧
    parseApacheLogLine c9NoProtoLine = .record c9NoProtoRec ∧
    c9NoProtoRec.protocol = [] := by
  refine ⟨?_, by decide, by decide⟩
  intro n
  cases n with
  | zero => decide
  | succ m =>
    have hsearch := c9_search_succ m
    simp only [parseApacheLogLine, hsearch]
    decide

/-! ## Extension framework: appending text after a trailing space -/

theorem takeWhile_append_of_ne {c : Char → Bool} {s : List Char}
    (h : List.takeWhile c s ≠ s) (u : List Char) :
    List.takeWhile c (s ++ u) = List.takeWhile c s := by
  induction s with
  | nil => simp at h
  | cons a t ih =>
    rw [List.cons_append, List.takeWhile_cons, List.takeWhile_cons]
    by_cases ha : c a = true
    · rw [if_pos ha, if_pos ha]
      rw [List.takeWhile_cons, if_pos ha] at h
      have ht : List.takeWhile c t ≠ t := fun hc => h (by rw [hc])
      rw [ih ht]
    · rw [if_neg ha, if_neg ha]

theorem takeWhile_append_all {c : Char → Bool} {s : List Char}
    (h : List.takeWhile c s = s) {u : List Char} (hu : List.takeWhile c u = []) :
    List.takeWhile c (s ++ u) = s := by
  induction s with
  | nil => simpa using hu
  | cons a t ih =>
    rw [List.takeWhile_cons] at h
    by_cases ha : c a = true
    · rw [if_pos ha] at h
      have ht : List.takeWhile c t = t := by
        have := congrArg List.tail h
        simpa using this
      rw [List.cons_append, List.takeWhile_cons, if_pos ha, ih ht]
    · rw [if_neg ha] at h
      exact absurd h.symm (List.cons_ne_nil a t)

theorem takeWhile_le_length {c : Char → Bool} (s : List Char) :
    (List.takeWhile c s).length ≤ s.length :=
  (List.takeWhile_sublist c).length_le

theorem dropsDesc_append {s u : List Char} :
    ∀ {n : Nat}, n ≤ s.length →
      dropsDesc (s ++ u) n = (dropsDesc s n).map (fun r => r ++ u) := by
  intro n
  induction n with
  | zero => intro _; simp [dropsDesc]
  | succ k ih =>
    intro h
    rw [dropsDesc, dropsDesc, List.map_cons, ih (by omega)]
    rw [List.drop_append_of_le_length (by omega)]

theorem dropsDescPos_append {s u : List Char} :
    ∀ {n : Nat}, n ≤ s.length →
      dropsDescPos (s ++ u) n = (dropsDescPos s n).map (fun r => r ++ u) := by
  intro n
  induction n with
  | zero => intro _; simp [dropsDescPos]
  | succ k ih =>
    intro h
    rw [dropsDescPos, dropsDescPos, List.map_cons, ih (by omega)]
    rw [List.drop_append_of_le_length (by omega)]

theorem groupsP_trivial : ∀ (r : RE), GroupsP (fun _ _ => True) r := by
  intro r
  induction r with
  | eps => trivial
  | cls c => trivial
  | star c => trivial
  | plus c => trivial
  | seq a b iha ihb => exact ⟨iha, ihb⟩
  | group k r ihr => exact ⟨fun t _ => trivial, ihr⟩

/-- Any matcher result's remainder is a suffix of the input. -/
theorem matchAll_consumes {r : RE} {s : List Char}
    {caps : List (Nat × List Char)} {p : List Char × List (Nat × List Char)}
    (hp : p ∈ matchAll r s caps) : ∃ t, s = t ++ p.1 := by
  obtain ⟨_, t, hst, _⟩ := matchAll_sound r (groupsP_trivial r) s caps p hp
  exact ⟨t, hst⟩

theorem ext_eps {s u : List Char} {caps : List (Nat × List Char)} :
    matchAll .eps (s ++ u) caps = (matchAll .eps s caps).map (extMap u) := by
  simp [matchAll, extMap]

theorem ext_cls {c : Char → Bool} {s v : List Char} {caps : List (Nat × List Char)}
    (h : s = [] → c ' ' = false) :
    matchAll (.cls c) (s ++ ' ' :: v) caps =
      (matchAll (.cls c) s caps).map (extMap (' ' :: v)) := by
  cases s with
  | nil =>
    simp only [List.nil_append, matchAll]
    rw [h rfl]
    simp [matchAll]
  | cons a t =>
    rw [List.cons_append]
    simp only [matchAll]
    by_cases ha : c a = true
    · simp [ha, extMap]
    · simp [ha]

theorem ext_star {c : Char → Bool} {s v : List Char} {caps : List (Nat × List Char)}
    (h : List.takeWhile c s = s → c ' ' = false) :
    matchAll (.star c) (s ++ ' ' :: v) caps =
      (matchAll (.star c) s caps).map (extMap (' ' :: v)) := by
  have hlen : (List.takeWhile c (s ++ ' ' :: v)).length =
      (List.takeWhile c s).length ∧
      (List.takeWhile c s).length ≤ s.length := by
    by_cases hall : List.takeWhile c s = s
    · have hc := h hall
      constructor
      · rw [takeWhile_append_all hall (by simp [List.takeWhile_cons, hc])]
        rw [hall]
      · rw [hall]
    · exact ⟨by rw [takeWhile_append_of_ne hall], takeWhile_le_length s⟩
  simp only [matchAll, hlen.1, dropsDesc_append hlen.2, List.map_map]
  rfl

theorem ext_plus {c : Char → Bool} {s v : List Char} {caps : List (Nat × List Char)}
    (h : List.takeWhile c s = s → c ' ' = false) :
    matchAll (.plus c) (s ++ ' ' :: v) caps =
      (matchAll (.plus c) s caps).map (extMap (' ' :: v)) := by
  have hlen : (List.takeWhile c (s ++ ' ' :: v)).length =
      (List.takeWhile c s).length ∧
      (List.takeWhile c s).length ≤ s.length := by
    by_cases hall : List.takeWhile c s = s
    · have hc := h hall
      constructor
      · rw [takeWhile_append_all hall (by simp [List.takeWhile_cons, hc])]
        rw [hall]
      · rw [hall]
    · exact ⟨by rw [takeWhile_append_of_ne hall], takeWhile_le_length s⟩
  simp only [matchAll, hlen.1, dropsDescPos_append hlen.2, List.map_map]
  rfl

theorem ext_group {n : Nat} {r : RE} {s u : List Char}
    {caps : List (Nat × List Char)}
    (ih : matchAll r (s ++ u) caps = (matchAll r s caps).map (extMap u)) :
    matchAll (.group n r) (s ++ u) caps =
      (matchAll (.group n r) s caps).map (extMap u) := by
  simp only [matchAll, ih, List.map_map]
  apply List.map_congr_left
  intro p hp
  have hple : p.1.length ≤ s.length := by
    obtain ⟨t, hst⟩ := matchAll_consumes hp
    rw [hst]
    simp
  simp only [Function.comp, extMap]
  have h1 : (s ++ u).length - (p.1 ++ u).length = s.length - p.1.length := by
    simp only [List.length_append]
    omega
  rw [h1, List.take_append_of_le_length (by omega)]

theorem ext_seq {a b : RE} {s u : List Char} {caps : List (Nat × List Char)}
    (ha : matchAll a (s ++ u) caps = (matchAll a s caps).map (extMap u))
    (hb : ∀ p ∈ matchAll a s caps,
      matchAll b (p.1 ++ u) p.2 = (matchAll b p.1 p.2).map (extMap u)) :
    matchAll (.seq a b) (s ++ u) caps =
      (matchAll (.seq a b) s caps).map (extMap u) := by
  simp only [matchAll, ha, List.flatMap_map, List.map_flatMap]
  apply List.flatMap_congr ?_
  intro p hp
  exact hb p hp

/-- Capture-aware soundness: any enumerated result consumed a prefix whose
capture entries sit on top of the incoming capture list. -/
theorem matchAll_soundC :
    ∀ (r : RE) (s : List Char) (caps : List (Nat × List Char)) out,
      out ∈ matchAll r s caps →
      ∃ t e, s = t ++ out.1 ∧ out.2 = e ++ caps ∧ SatC r t e := by
  intro r
  induction r with
  | eps =>
    intro s caps out hout
    simp [matchAll] at hout
    subst hout
    exact ⟨[], [], rfl, rfl, SatC.eps⟩
  | cls c =>
    intro s caps out hout
    cases s with
    | nil => simp [matchAll] at hout
    | cons ch rest =>
      simp only [matchAll] at hout
      by_cases hc : c ch = true
      · simp [hc] at hout
        subst hout
        exact ⟨[ch], [], rfl, rfl, SatC.cls hc⟩
      · simp [hc] at hout
  | seq a b iha ihb =>
    intro s caps out hout
    simp only [matchAll, List.mem_flatMap] at hout
    obtain ⟨p, hp, hout⟩ := hout
    obtain ⟨t1, e1, hs1, hc1, hsat1⟩ := iha s caps p hp
    obtain ⟨t2, e2, hs2, hc2, hsat2⟩ := ihb p.1 p.2 out hout
    refine ⟨t1 ++ t2, e2 ++ e1, ?_, ?_, SatC.seq hsat1 hsat2⟩
    · rw [hs1, hs2, List.append_assoc]
    · rw [hc2, hc1, List.append_assoc]
  | star c =>
    intro s caps out hout
    simp only [matchAll, List.mem_map] at hout
    obtain ⟨r', hr', hout⟩ := hout
    obtain ⟨i, hi, hreq⟩ := mem_dropsDesc hr'
    subst hout hreq
    exact ⟨s.take i, [], (List.take_append_drop i s).symm, rfl,
      SatC.star (take_sat_of_le_takeWhile hi)⟩
  | plus c =>
    intro s caps out hout
    simp only [matchAll, List.mem_map] at hout
    obtain ⟨r', hr', hout⟩ := hout
    obtain ⟨i, h1, hi, hreq⟩ := mem_dropsDescPos hr'
    subst hout hreq
    refine ⟨s.take i, [], (List.take_append_drop i s).symm, rfl,
      SatC.plus ?_ (take_sat_of_le_takeWhile hi)⟩
    have htw : (s.takeWhile c).length ≤ s.length := takeWhile_le_length s
    have : (s.take i).length = min i s.length := List.length_take i s
    intro hnil
    rw [hnil] at this
    simp at this
    omega
  | group n r ih =>
    intro s caps out hout
    simp only [matchAll, List.mem_map] at hout
    obtain ⟨p, hp, hout⟩ := hout
    obtain ⟨t, e, hs, hc, hsat⟩ := ih s caps p hp
    subst hout
    refine ⟨t, (n, t) :: e, hs, ?_, SatC.group hsat⟩
    have htake : s.take (s.length - p.1.length) = t := by
      rw [hs]; exact take_len_of_append
    rw [htake, hc]
    rfl

theorem SatC_eps {t : List Char} {e : List (Nat × List Char)}
    (h : SatC .eps t e) : t = [] ∧ e = [] := by
  cases h; exact ⟨rfl, rfl⟩

theorem SatC_cls {c : Char → Bool} {t : List Char} {e : List (Nat × List Char)}
    (h : SatC (.cls c) t e) : (∃ ch, t = [ch] ∧ c ch = true) ∧ e = [] := by
  cases h with
  | cls hc => exact ⟨⟨_, rfl, hc⟩, rfl⟩

theorem SatC_seq {a b : RE} {t : List Char} {e : List (Nat × List Char)}
    (h : SatC (.seq a b) t e) :
    ∃ t1 t2 e1 e2, t = t1 ++ t2 ∧ e = e2 ++ e1 ∧ SatC a t1 e1 ∧ SatC b t2 e2 := by
  cases h with
  | seq h1 h2 => exact ⟨_, _, _, _, rfl, rfl, h1, h2⟩

theorem SatC_star {c : Char → Bool} {t : List Char} {e : List (Nat × List Char)}
    (h : SatC (.star c) t e) : (∀ ch ∈ t, c ch = true) ∧ e = [] := by
  cases h with
  | star hall => exact ⟨hall, rfl⟩

theorem SatC_plus {c : Char → Bool} {t : List Char} {e : List (Nat × List Char)}
    (h : SatC (.plus c) t e) :
    (t ≠ [] ∧ ∀ ch ∈ t, c ch = true) ∧ e = [] := by
  cases h with
  | plus hne hall => exact ⟨⟨hne, hall⟩, rfl⟩

theorem SatC_group {n : Nat} {r : RE} {t : List Char}
    {e : List (Nat × List Char)} (h : SatC (.group n r) t e) :
    ∃ e', e = (n, t) :: e' ∧ SatC r t e' := by
  cases h with
  | group h' => exact ⟨_, rfl, h'⟩

/-- Structure of any line on which the pattern search succeeds: the line
splits into the nine captured fields with their separators, and the capture
list is exactly the nine fields. -/
theorem record_line_decomp {line rest0 : List Char} {caps : List (Nat × List Char)}
    (hs : reSearch line = some (rest0, caps)) :
    ∃ g1t g2t g3t t4a sp4 sgn dd1 dd2 dd3 dd4 g5t g6t w1 g7t w2 S1 S2 S3 g9t,
      line = g1t ++ ' ' :: (g2t ++ ' ' :: (g3t ++ ' ' :: '[' ::
        (t4a ++ sp4 :: sgn :: dd1 :: dd2 :: dd3 :: dd4 :: ']' :: ' ' :: '"' ::
        (g5t ++ ' ' :: (g6t ++ (w1 ++ (g7t ++ (w2 ++ '"' :: ' ' ::
          S1 :: S2 :: S3 :: ' ' :: (g9t ++ rest0))))))))) ∧
      (g1t ≠ [] ∧ ∀ ch ∈ g1t, nonSpace ch = true) ∧
      (g2t ≠ [] ∧ ∀ ch ∈ g2t, nonSpace ch = true) ∧
      (g3t ≠ [] ∧ ∀ ch ∈ g3t, nonSpace ch = true) ∧
      (t4a ≠ [] ∧ ∀ ch ∈ t4a, wordColonSlash ch = true) ∧
      isSpaceP sp4 = true ∧ plusMinus sgn = true ∧
      (g5t ≠ [] ∧ ∀ ch ∈ g5t, nonSpace ch = true) ∧
      (g6t ≠ [] ∧ ∀ ch ∈ g6t, nonSpace ch = true) ∧
      (∀ ch ∈ w1, isSpaceP ch = true) ∧
      (∀ ch ∈ g7t, nonSpace ch = true) ∧
      (∀ ch ∈ w2, isSpaceP ch = true) ∧
      isDigitB S1 = true ∧ isDigitB S2 = true ∧ isDigitB S3 = true ∧
      (g9t ≠ [] ∧ ∀ ch ∈ g9t, nonSpace ch = true) ∧
      caps = [(9, g9t), (8, [S1, S2, S3]), (7, g7t), (6, g6t), (5, g5t),
              (4, t4a ++ sp4 :: sgn :: [dd1, dd2, dd3, dd4]), (3, g3t),
              (2, g2t), (1, g1t)] := by
  have hmem : (rest0, caps) ∈ matchAll APACHE_ACCESS_LOG_PATTERN line [] :=
    mem_of_head?_eq hs
  obtain ⟨t, e, hline0, hcaps0, hsat⟩ := matchAll_soundC _ _ _ _ hmem
  rw [List.append_nil] at hcaps0
  have hline : line = t ++ rest0 := hline0
  have hcaps : caps = e := hcaps0
  clear hline0 hcaps0
  simp only [APACHE_ACCESS_LOG_PATTERN, patSeq, List.foldr] at hsat
  -- element 1: group 1 (plus nonSpace)
  obtain ⟨t1, tr1, e1, er1, ht1, he1, hA, hsat⟩ := SatC_seq hsat
  obtain ⟨e1i, he1i, hA⟩ := SatC_group hA
  obtain ⟨⟨h1ne, h1all⟩, he1z⟩ := SatC_plus hA
  -- element 2: literal ' '
  obtain ⟨t2, tr2, e2, er2, ht2, he2, hB, hsat⟩ := SatC_seq hsat
  obtain ⟨⟨c2, hc2, hc2e⟩, he2z⟩ := SatC_cls hB
  have hc2' : c2 = ' ' := of_decide_eq_true hc2e
  -- element 3: group 2
  obtain ⟨t3, tr3, e3, er3, ht3, he3, hC, hsat⟩ := SatC_seq hsat
  obtain ⟨e3i, he3i, hC⟩ := SatC_group hC
  obtain ⟨⟨h2ne, h2all⟩, he3z⟩ := SatC_plus hC
  -- element 4: literal ' '
  obtain ⟨t4, tr4, e4, er4, ht4, he4, hD, hsat⟩ := SatC_seq hsat
  obtain ⟨⟨c4, hc4, hc4e⟩, he4z⟩ := SatC_cls hD
  have hc4' : c4 = ' ' := of_decide_eq_true hc4e
  -- element 5: group 3
  obtain ⟨t5, tr5, e5, er5, ht5, he5, hE, hsat⟩ := SatC_seq hsat
  obtain ⟨e5i, he5i, hE⟩ := SatC_group hE
  obtain ⟨⟨h3ne, h3all⟩, he5z⟩ := SatC_plus hE
  -- element 6: literal ' '
  obtain ⟨t6, tr6, e6, er6, ht6, he6, hF, hsat⟩ := SatC_seq hsat
  obtain ⟨⟨c6, hc6, hc6e⟩, he6z⟩ := SatC_cls hF
  have hc6' : c6 = ' ' := of_decide_eq_true hc6e
  -- element 7: literal '['
  obtain ⟨t7, tr7, e7, er7, ht7, he7, hG, hsat⟩ := SatC_seq hsat
  obtain ⟨⟨c7, hc7, hc7e⟩, he7z⟩ := SatC_cls hG
  have hc7' : c7 = '[' := of_decide_eq_true hc7e
  -- element 8: group 4 (timestamp)
  obtain ⟨t8, tr8, e8, er8, ht8, he8, hH, hsat⟩ := SatC_seq hsat
  obtain ⟨e8i, he8i, hH⟩ := SatC_group hH
  obtain ⟨ta, tb, ea, eb, hta, hea, hHa, hH⟩ := SatC_seq hH
  obtain ⟨⟨h4ne, h4all⟩, heaz⟩ := SatC_plus hHa
  obtain ⟨tc, td, ec, ed, htc, hec, hHc, hH⟩ := SatC_seq hH
  obtain ⟨⟨csp, hcsp, hcspP⟩, hecz⟩ := SatC_cls hHc
  obtain ⟨te, tf, ee, ef, hte, hee, hHe, hH⟩ := SatC_seq hH
  obtain ⟨⟨csg, hcsg, hcsgP⟩, heez⟩ := SatC_cls hHe
  obtain ⟨tg, th', eg, eh, htg, heg, hHg, hH⟩ := SatC_seq hH
  obtain ⟨⟨cd1, hcd1, hcd1P⟩, hegz⟩ := SatC_cls hHg
  obtain ⟨ti, tj, ei, ej, hti, hei, hHi, hH⟩ := SatC_seq hH
  obtain ⟨⟨cd2, hcd2, hcd2P⟩, heiz⟩ := SatC_cls hHi
  obtain ⟨tk, tl, ek, el, htk, hek, hHk, hH⟩ := SatC_seq hH
  obtain ⟨⟨cd3, hcd3, hcd3P⟩, hekz⟩ := SatC_cls hHk
  obtain ⟨tm, tn, em, en, htm, hem, hHm, hH⟩ := SatC_seq hH
  obtain ⟨⟨cd4, hcd4, hcd4P⟩, hemz⟩ := SatC_cls hHm
  obtain ⟨htn, henz⟩ := SatC_eps hH
  -- element 9: literal ']'
  obtain ⟨t9, tr9, e9, er9, ht9, he9, hI, hsat⟩ := SatC_seq hsat
  obtain ⟨⟨c9', hc9, hc9e⟩, he9z⟩ := SatC_cls hI
  have hc9' : c9' = ']' := of_decide_eq_true hc9e
  -- element 10: literal ' '
  obtain ⟨t10, tr10, e10, er10, ht10, he10, hJ, hsat⟩ := SatC_seq hsat
  obtain ⟨⟨c10, hc10, hc10e⟩, he10z⟩ := SatC_cls hJ
  have hc10' : c10 = ' ' := of_decide_eq_true hc10e
  -- element 11: literal '"'
  obtain ⟨t11, tr11, e11, er11, ht11, he11, hK, hsat⟩ := SatC_seq hsat
  obtain ⟨⟨c11, hc11, hc11e⟩, he11z⟩ := SatC_cls hK
  have hc11' : c11 = '"' := of_decide_eq_true hc11e
  -- element 12: group 5
  obtain ⟨t12, tr12, e12, er12, ht12, he12, hL, hsat⟩ := SatC_seq hsat
  obtain ⟨e12i, he12i, hL⟩ := SatC_group hL
  obtain ⟨⟨h5ne, h5all⟩, he12z⟩ := SatC_plus hL
  -- element 13: literal ' '
  obtain ⟨t13, tr13, e13, er13, ht13, he13, hM, hsat⟩ := SatC_seq hsat
  obtain ⟨⟨c13, hc13, hc13e⟩, he13z⟩ := SatC_cls hM
  have hc13' : c13 = ' ' := of_decide_eq_true hc13e
  -- element 14: group 6
  obtain ⟨t14, tr14, e14, er14, ht14, he14, hN, hsat⟩ := SatC_seq hsat
  obtain ⟨e14i, he14i, hN⟩ := SatC_group hN
  obtain ⟨⟨h6ne, h6all⟩, he14z⟩ := SatC_plus hN
  -- element 15: star isSpaceP
  obtain ⟨t15, tr15, e15, er15, ht15, he15, hO, hsat⟩ := SatC_seq hsat
  obtain ⟨hw1all, he15z⟩ := SatC_star hO
  -- element 16: group 7 (star nonSpace)
  obtain ⟨t16, tr16, e16, er16, ht16, he16, hP', hsat⟩ := SatC_seq hsat
  obtain ⟨e16i, he16i, hP'⟩ := SatC_group hP'
  obtain ⟨h7all, he16z⟩ := SatC_star hP'
  -- element 17: star isSpaceP
  obtain ⟨t17, tr17, e17, er17, ht17, he17, hQ, hsat⟩ := SatC_seq hsat
  obtain ⟨hw2all, he17z⟩ := SatC_star hQ
  -- element 18: literal '"'
  obtain ⟨t18, tr18, e18, er18, ht18, he18, hR, hsat⟩ := SatC_seq hsat
  obtain ⟨⟨c18, hc18, hc18e⟩, he18z⟩ := SatC_cls hR
  have hc18' : c18 = '"' := of_decide_eq_true hc18e
  -- element 19: literal ' '
  obtain ⟨t19, tr19, e19, er19, ht19, he19, hS, hsat⟩ := SatC_seq hsat
  obtain ⟨⟨c19, hc19, hc19e⟩, he19z⟩ := SatC_cls hS
  have hc19' : c19 = ' ' := of_decide_eq_true hc19e
  -- element 20: group 8 (three digits)
  obtain ⟨t20, tr20, e20, er20, ht20, he20, hT, hsat⟩ := SatC_seq hsat
  obtain ⟨e20i, he20i, hT⟩ := SatC_group hT
  obtain ⟨u1, u2, f1, f2, hu1, hf1, hTa, hT⟩ := SatC_seq hT
  obtain ⟨⟨S1, hS1, hS1P⟩, hf1z⟩ := SatC_cls hTa
  obtain ⟨u3, u4, f3, f4, hu3, hf3, hTc, hT⟩ := SatC_seq hT
  obtain ⟨⟨S2, hS2, hS2P⟩, hf3z⟩ := SatC_cls hTc
  obtain ⟨u5, u6, f5, f6, hu5, hf5, hTe, hT⟩ := SatC_seq hT
  obtain ⟨⟨S3, hS3, hS3P⟩, hf5z⟩ := SatC_cls hTe
  obtain ⟨hu6, hf6z⟩ := SatC_eps hT
  -- element 21: literal ' '
  obtain ⟨t21, tr21, e21, er21, ht21, he21, hU, hsat⟩ := SatC_seq hsat
  obtain ⟨⟨c21, hc21, hc21e⟩, he21z⟩ := SatC_cls hU
  have hc21' : c21 = ' ' := of_decide_eq_true hc21e
  -- element 22: group 9
  obtain ⟨t22, tr22, e22, er22, ht22, he22, hV, hsat⟩ := SatC_seq hsat
  obtain ⟨e22i, he22i, hV⟩ := SatC_group hV
  obtain ⟨⟨h9ne, h9all⟩, he22z⟩ := SatC_plus hV
  obtain ⟨htr22, herz⟩ := SatC_eps hsat
  -- assemble
  subst hc2' hc4' hc6' hc7' hc9' hc10' hc11' hc13' hc18' hc19' hc21'
  refine ⟨t1, t3, t5, ta, csp, csg, cd1, cd2, cd3, cd4, t12, t14, t15, t16,
    t17, S1, S2, S3, t22, ?_, ⟨h1ne, h1all⟩, ⟨h2ne, h2all⟩, ⟨h3ne, h3all⟩,
    ⟨h4ne, h4all⟩, hcspP, hcsgP, ⟨h5ne, h5all⟩, ⟨h6ne, h6all⟩, hw1all, h7all,
    hw2all, hS1P, hS2P, hS3P, ⟨h9ne, h9all⟩, ?_⟩
  · rw [hline, ht1, ht2, hc2, ht3, ht4, hc4, ht5, ht6, hc6, ht7, hc7, ht8,
      hta, htc, hcsp, hte, hcsg, htg, hcd1, hti, hcd2, htk, hcd3, htm, hcd4,
      htn, ht9, hc9, ht10, hc10, ht11, hc11, ht12, ht13, hc13, ht14, ht15,
      ht16, ht17, ht18, hc18, ht19, hc19, ht20, hu1, hS1, hu3, hS2, hu5, hS3,
      hu6, ht21, hc21, ht22, htr22]
    simp [List.append_assoc]
  · rw [hcaps, he1, he1i, he1z, he2, he2z, he3, he3i, he3z, he4, he4z, he5,
      he5i, he5z, he6, he6z, he7, he7z, he8, he8i, hea, heaz, hec, hecz, hee,
      heez, heg, hegz, hei, heiz, hek, hekz, hem, hemz, henz, he9, he9z,
      he10, he10z, he11, he11z, he12, he12i, he12z, he13, he13z, he14, he14i,
      he14z, he15, he15z, he16, he16i, he16z, he17, he17z, he18, he18z, he19,
      he19z, he20, he20i, hf1, hf1z, hf3, hf3z, hf5, hf5z, hf6z, he21, he21z,
      he22, he22i, he22z, herz]
    rw [hta, htc, hcsp, hte, hcsg, htg, hcd1, hti, hcd2, htk, hcd3, htm,
      hcd4, htn, hu1, hS1, hu3, hS2, hu5, hS3, hu6]
    simp [List.append_assoc]

theorem pattern_eq_C1 : APACHE_ACCESS_LOG_PATTERN = C1 := rfl

/-! ## Generic helpers for the extension walk -/

theorem takeWhile_len_bound {c : Char → Bool} {d : Char} (hd : c d = false)
    (A B : List Char) :
    (List.takeWhile c (A ++ d :: B)).length ≤ A.length := by
  induction A with
  | nil => simp [List.takeWhile_cons, hd]
  | cons a A' ih =>
    rw [List.cons_append, List.takeWhile_cons]
    by_cases ha : c a = true
    · rw [if_pos ha]
      simpa using ih
    · rw [if_neg ha]
      simp

theorem takeWhile_exact {c : Char → Bool} {d : Char} {A : List Char}
    (hA : ∀ ch ∈ A, c ch = true) (hd : c d = false) (B : List Char) :
    List.takeWhile c (A ++ d :: B) = A := by
  induction A with
  | nil => simp [List.takeWhile_cons, hd]
  | cons a A' ih =>
    rw [List.cons_append, List.takeWhile_cons, if_pos (hA a (by simp))]
    rw [ih (fun ch hch => hA ch (by simp [hch]))]

theorem takeWhile_ne_of_mem {c : Char → Bool} {v : List Char} {ch0 : Char}
    (hmem : ch0 ∈ v) (hch : c ch0 = false) : List.takeWhile c v ≠ v := by
  intro h
  have : ∀ ch ∈ v, c ch = true := by
    intro ch hchv
    exact List.mem_takeWhile_imp (h ▸ hchv)
  rw [this ch0 hmem] at hch
  exact absurd hch (by decide)

theorem nonSpace_space : nonSpace ' ' = false := by decide

theorem isSpaceP_space : isSpaceP ' ' = true := by decide

theorem isDigitB_nonSpace {c : Char} (h : isDigitB c = true) :
    nonSpace c = true := by
  simp [nonSpace, isDigitB_not_space h]

theorem isDigitB_ne_space {c : Char} (h : isDigitB c = true) : c ≠ ' ' := by
  intro heq
  subst heq
  exact absurd h (by decide)

theorem isDigitB_ne_quote {c : Char} (h : isDigitB c = true) : c ≠ '"' := by
  intro heq
  subst heq
  exact absurd h (by decide)

theorem wcs_ge47 {c : Char} (h : wordColonSlash c = true) :
    47 ≤ c.toNat := by
  simp only [wordColonSlash, isWordP, isDigitB, Bool.or_eq_true,
    Bool.and_eq_true, decide_eq_true_eq] at h
  rcases h with ((((h1 | h1) | h1) | h1) | h1) | h1
  · exact le_trans (by decide) h1.1
  · exact le_trans (by decide) h1.1
  · exact le_trans (by decide) h1.1
  · subst h1
    decide
  · subst h1
    decide
  · subst h1
    decide

theorem wcs_not_space {c : Char} (h : wordColonSlash c = true) :
    isSpaceP c = false := by
  have h47 := wcs_ge47 h
  by_contra hcon
  rw [Bool.not_eq_false] at hcon
  simp only [isSpaceP, Bool.or_eq_true, decide_eq_true_eq] at hcon
  rcases hcon with ((((h' | h') | h') | h') | h') | h' <;>
    (subst h'; exact absurd h47 (by decide))

theorem nonSpace_ne_space {c : Char} (h : nonSpace c = true) : c ≠ ' ' := by
  intro heq
  subst heq
  exact absurd h (by decide)

theorem space_not_wcs {c : Char} (h : isSpaceP c = true) :
    wordColonSlash c = false := by
  by_contra hcon
  rw [Bool.not_eq_false] at hcon
  rw [wcs_not_space hcon] at h
  exact absurd h (by decide)

/-- Two decompositions of a string as an all-`c` block, a non-`c` char and a
remainder agree. -/
theorem append_eq_append_class {c : Char → Bool} {a b : Char} {X Y : List Char} :
    ∀ {A B : List Char}, (∀ ch ∈ A, c ch = true) → (∀ ch ∈ B, c ch = true) →
      c a = false → c b = false → A ++ a :: X = B ++ b :: Y →
      A = B ∧ a = b ∧ X = Y := by
  intro A
  induction A with
  | nil =>
    intro B hA hB ha hb h
    cases B with
    | nil =>
      simp only [List.nil_append, List.cons.injEq] at h
      exact ⟨rfl, h.1, h.2⟩
    | cons b0 B' =>
      rw [List.nil_append, List.cons_append] at h
      injection h with h1 _
      have hcb0 := hB b0 (by simp)
      rw [← h1] at hcb0
      rw [hcb0] at ha
      exact absurd ha (by decide)
  | cons a0 A' ih =>
    intro B hA hB ha hb h
    cases B with
    | nil =>
      rw [List.cons_append, List.nil_append] at h
      injection h with h1 _
      have := hA a0 (by simp)
      rw [h1] at this
      rw [this] at hb
      exact absurd hb (by decide)
    | cons b0 B' =>
      rw [List.cons_append, List.cons_append] at h
      injection h with h1 h2
      obtain ⟨hAB, hab, hXY⟩ := ih (fun ch hch => hA ch (by simp [hch]))
        (fun ch hch => hB ch (by simp [hch])) ha hb h2
      exact ⟨by rw [h1, hAB], hab, hXY⟩

/-- Extension step for a literal-class element followed by a continuation:
if the head fails the class both sides die together; if it succeeds, the
continuation extends. -/
theorem ext_seq_cls_head {c : Char → Bool} {K : RE} {v ve : List Char}
    {caps : List (Nat × List Char)} (hne : v ≠ [])
    (hK : ∀ a t, v = a :: t → c a = true →
      matchAll K (t ++ ' ' :: ve) caps = (matchAll K t caps).map (extMap (' ' :: ve))) :
    matchAll (.seq (.cls c) K) (v ++ ' ' :: ve) caps =
      (matchAll (.seq (.cls c) K) v caps).map (extMap (' ' :: ve)) := by
  cases v with
  | nil => exact absurd rfl hne
  | cons a t =>
    rw [List.cons_append]
    by_cases hca : c a = true
    · simp only [matchAll, if_pos hca, List.flatMap_cons, List.flatMap_nil,
        List.append_nil, List.map_flatMap]
      simpa using hK a t rfl hca
    · simp [matchAll, hca]

/-- Extension step for a captured `(\S+)`-style group followed by a
continuation, on a string whose class-run stops at `d`. -/
theorem ext_seq_gplus {n : Nat} {c : Char → Bool} {K : RE} {A B : List Char}
    {d : Char} {ve : List Char} (hd : c d = false) (hcsp : c ' ' = false)
    (hK : ∀ j, j ≤ A.length → ∀ caps' : List (Nat × List Char),
      matchAll K ((A.drop j ++ d :: B) ++ ' ' :: ve) caps' =
        (matchAll K (A.drop j ++ d :: B) caps').map (extMap (' ' :: ve))) :
    ∀ caps, matchAll (.seq (.group n (.plus c)) K) ((A ++ d :: B) ++ ' ' :: ve) caps =
      (matchAll (.seq (.group n (.plus c)) K) (A ++ d :: B) caps).map
        (extMap (' ' :: ve)) := by
  intro caps
  apply ext_seq
  · exact ext_group (ext_plus (fun _ => hcsp))
  · intro p hp
    simp only [matchAll, List.map_map, List.mem_map, Function.comp] at hp
    obtain ⟨r', hr', hpr⟩ := hp
    obtain ⟨i, _, hi2, hrd⟩ := mem_dropsDescPos hr'
    have hile : i ≤ A.length := le_trans hi2 (takeWhile_len_bound hd A B)
    rw [← hpr]
    simp only
    rw [hrd, List.drop_append_of_le_length hile]
    exact hK i hile _

/-- Extension step for a captured `(\S*)`-style group followed by a
continuation. -/
theorem ext_seq_gstar {n : Nat} {c : Char → Bool} {K : RE} {A B : List Char}
    {d : Char} {ve : List Char} (hd : c d = false) (hcsp : c ' ' = false)
    (hK : ∀ j, j ≤ A.length → ∀ caps' : List (Nat × List Char),
      matchAll K ((A.drop j ++ d :: B) ++ ' ' :: ve) caps' =
        (matchAll K (A.drop j ++ d :: B) caps').map (extMap (' ' :: ve))) :
    ∀ caps, matchAll (.seq (.group n (.star c)) K) ((A ++ d :: B) ++ ' ' :: ve) caps =
      (matchAll (.seq (.group n (.star c)) K) (A ++ d :: B) caps).map
        (extMap (' ' :: ve)) := by
  intro caps
  apply ext_seq
  · exact ext_group (ext_star (fun _ => hcsp))
  · intro p hp
    simp only [matchAll, List.map_map, List.mem_map, Function.comp] at hp
    obtain ⟨r', hr', hpr⟩ := hp
    obtain ⟨i, hi, hrd⟩ := mem_dropsDesc hr'
    have hile : i ≤ A.length := le_trans hi (takeWhile_len_bound hd A B)
    rw [← hpr]
    simp only
    rw [hrd, List.drop_append_of_le_length hile]
    exact hK i hile _

/-- Extension step for an uncaptured `\s*`-style star followed by a
continuation. -/
theorem ext_seq_star {c : Char → Bool} {K : RE} {A B : List Char}
    {d : Char} {ve : List Char} (hd : c d = false)
    (hK : ∀ j, j ≤ A.length → ∀ caps' : List (Nat × List Char),
      matchAll K ((A.drop j ++ d :: B) ++ ' ' :: ve) caps' =
        (matchAll K (A.drop j ++ d :: B) caps').map (extMap (' ' :: ve))) :
    ∀ caps, matchAll (.seq (.star c) K) ((A ++ d :: B) ++ ' ' :: ve) caps =
      (matchAll (.seq (.star c) K) (A ++ d :: B) caps).map (extMap (' ' :: ve)) := by
  intro caps
  apply ext_seq
  · exact ext_star (fun hall =>
      absurd hall (takeWhile_ne_of_mem (by simp) hd))
  · intro p hp
    simp only [matchAll, List.mem_map] at hp
    obtain ⟨r', hr', hpr⟩ := hp
    obtain ⟨i, hi, hrd⟩ := mem_dropsDesc hr'
    have hile : i ≤ A.length := le_trans hi (takeWhile_len_bound hd A B)
    rw [← hpr]
    simp only
    rw [hrd, List.drop_append_of_le_length hile]
    exact hK i hile _

/-! ## Walking the pattern suffix by suffix

Each `extCk...` lemma shows that appending `' ' :: ve` to the input commutes
with matching the chain suffix `Ck`, on every remainder shape that the
preceding elements can feed to `Ck` when the overall line is a full record
line. -/

theorem extC22all {ve : List Char} (v : List Char) (caps : List (Nat × List Char)) :
    matchAll C22 (v ++ ' ' :: ve) caps = (matchAll C22 v caps).map (extMap (' ' :: ve)) := by
  apply ext_seq
  · exact ext_group (ext_plus (fun _ => nonSpace_space))
  · intro p _
    exact ext_eps

theorem extC21all {ve : List Char} {v : List Char} (hne : v ≠ [])
    (caps : List (Nat × List Char)) :
    matchAll C21 (v ++ ' ' :: ve) caps = (matchAll C21 v caps).map (extMap (' ' :: ve)) := by
  apply ext_seq_cls_head hne
  intro a t _ _
  exact extC22all t caps

theorem extC20all {ve : List Char} {v : List Char} (hsp : ' ' ∈ v)
    (caps : List (Nat × List Char)) :
    matchAll C20 (v ++ ' ' :: ve) caps = (matchAll C20 v caps).map (extMap (' ' :: ve)) := by
  apply ext_seq
  · apply ext_group
    apply ext_seq
    · exact ext_cls (fun _ => by decide)
    · intro p _
      apply ext_seq
      · exact ext_cls (fun _ => by decide)
      · intro q _
        apply ext_seq
        · exact ext_cls (fun _ => by decide)
        · intro w _
          exact ext_eps
  · intro p hp
    apply extC21all ?_ p.2
    intro hnil
    obtain ⟨t, e, hv, _, hsat⟩ := matchAll_soundC _ _ _ _ hp
    rw [hnil, List.append_nil] at hv
    obtain ⟨e', _, hsat⟩ := SatC_group hsat
    obtain ⟨ta, tb, _, _, ht, _, hA, hsat⟩ := SatC_seq hsat
    obtain ⟨⟨ca, hca, hcaP⟩, _⟩ := SatC_cls hA
    obtain ⟨tc, td, _, _, ht2, _, hB, hsat⟩ := SatC_seq hsat
    obtain ⟨⟨cb, hcb, hcbP⟩, _⟩ := SatC_cls hB
    obtain ⟨te', tf, _, _, ht3, _, hC, hsat⟩ := SatC_seq hsat
    obtain ⟨⟨cc, hcc, hccP⟩, _⟩ := SatC_cls hC
    obtain ⟨hf, _⟩ := SatC_eps hsat
    subst hv ht hca ht2 hcb ht3 hcc hf
    simp only [List.mem_append, List.mem_singleton, List.not_mem_nil,
      or_false] at hsp
    rcases hsp with h' | h' | h'
    · subst h'
      exact absurd hcaP (by decide)
    · subst h'
      exact absurd hcbP (by decide)
    · subst h'
      exact absurd hccP (by decide)

theorem extC19all {ve g9t rest0 : List Char} {S3 : Char}
    (hS3 : isDigitB S3 = true) {v : List Char}
    (hv : ∃ w0, v = w0 ++ S3 :: ' ' :: (g9t ++ rest0))
    (caps : List (Nat × List Char)) :
    matchAll C19 (v ++ ' ' :: ve) caps = (matchAll C19 v caps).map (extMap (' ' :: ve)) := by
  obtain ⟨w0, rfl⟩ := hv
  apply ext_seq_cls_head (by simp)
  intro a t hva hca
  have ha : a = ' ' := of_decide_eq_true hca
  cases w0 with
  | nil =>
    rw [List.nil_append] at hva
    injection hva with h1 _
    rw [← h1] at ha
    exact absurd ha (isDigitB_ne_space hS3)
  | cons b w0' =>
    rw [List.cons_append] at hva
    injection hva with _ h2
    subst h2
    exact extC20all (by simp) caps

theorem extC18all {ve g9t rest0 : List Char} {S3 : Char}
    (hS3 : isDigitB S3 = true) (hg9ne : g9t ≠ [])
    (hg9nq : ∀ ch ∈ g9t, ch ≠ '"') {v : List Char}
    (hv : v = g9t ++ rest0 ∨ v = ' ' :: (g9t ++ rest0) ∨
      ∃ w0, v = w0 ++ S3 :: ' ' :: (g9t ++ rest0))
    (caps : List (Nat × List Char)) :
    matchAll C18 (v ++ ' ' :: ve) caps = (matchAll C18 v caps).map (extMap (' ' :: ve)) := by
  rcases hv with rfl | rfl | ⟨w0, rfl⟩
  · apply ext_seq_cls_head
      (by cases g9t with
          | nil => exact absurd rfl hg9ne
          | cons g0 g9' => simp)
    intro a t hva hca
    have ha : a = '"' := of_decide_eq_true hca
    cases g9t with
    | nil => exact absurd rfl hg9ne
    | cons g0 g9' =>
      rw [List.cons_append] at hva
      injection hva with h1 _
      exact absurd (h1.trans ha) (hg9nq g0 (by simp))
  · apply ext_seq_cls_head (by simp)
    intro a t hva hca
    have ha : a = '"' := of_decide_eq_true hca
    injection hva with h1 _
    exact absurd (h1.trans ha) (by decide)
  · apply ext_seq_cls_head (by simp)
    intro a t hva hca
    have ha : a = '"' := of_decide_eq_true hca
    cases w0 with
    | nil =>
      rw [List.nil_append] at hva
      injection hva with h1 _
      exact absurd (h1.trans ha) (isDigitB_ne_quote hS3)
    | cons b w0' =>
      rw [List.cons_append] at hva
      injection hva with _ h2
      subst h2
      exact extC19all hS3 ⟨w0', rfl⟩ caps

theorem extC17all {ve g9t rest0 : List Char} {S3 : Char}
    (hS3 : isDigitB S3 = true) (hg9ne : g9t ≠ [])
    (hg9nq : ∀ ch ∈ g9t, ch ≠ '"')
    (hg9ns : ∀ ch ∈ g9t, nonSpace ch = true) {v : List Char}
    (hv : v = ' ' :: (g9t ++ rest0) ∨ ∃ w0, v = w0 ++ S3 :: ' ' :: (g9t ++ rest0))
    (caps : List (Nat × List Char)) :
    matchAll C17 (v ++ ' ' :: ve) caps = (matchAll C17 v caps).map (extMap (' ' :: ve)) := by
  rcases hv with rfl | ⟨w0, rfl⟩
  · cases g9t with
    | nil => exact absurd rfl hg9ne
    | cons g0 g9' =>
      have hg0 : isSpaceP g0 = false := by
        simpa [nonSpace] using hg9ns g0 (by simp)
      have hshape : ' ' :: ((g0 :: g9') ++ rest0) =
          ([' '] ++ g0 :: (g9' ++ rest0)) := by simp
      rw [hshape]
      apply ext_seq_star hg0 ?_ caps
      intro j hj caps'
      have hj01 : j = 0 ∨ j = 1 := by
        simp only [List.length_cons, List.length_nil] at hj
        omega
      rcases hj01 with rfl | rfl
      · have hsh2 : List.drop 0 [' '] ++ g0 :: (g9' ++ rest0) =
            ' ' :: ((g0 :: g9') ++ rest0) := by simp
        rw [hsh2]
        exact extC18all hS3 hg9ne hg9nq (Or.inr (Or.inl rfl)) caps'
      · have hsh2 : List.drop 1 [' '] ++ g0 :: (g9' ++ rest0) =
            (g0 :: g9') ++ rest0 := by simp
        rw [hsh2]
        exact extC18all hS3 hg9ne hg9nq (Or.inl rfl) caps'
  · apply ext_seq_star (isDigitB_not_space hS3) ?_ caps
    intro j hj caps'
    exact extC18all hS3 hg9ne hg9nq (Or.inr (Or.inr ⟨w0.drop j, rfl⟩)) caps'

theorem extC16all {ve g9t rest0 : List Char} {S3 : Char}
    (hS3 : isDigitB S3 = true) (hg9ne : g9t ≠ [])
    (hg9nq : ∀ ch ∈ g9t, ch ≠ '"')
    (hg9ns : ∀ ch ∈ g9t, nonSpace ch = true) {v : List Char}
    (hv : v = ' ' :: (g9t ++ rest0) ∨ ∃ w0, v = w0 ++ S3 :: ' ' :: (g9t ++ rest0))
    (caps : List (Nat × List Char)) :
    matchAll C16 (v ++ ' ' :: ve) caps = (matchAll C16 v caps).map (extMap (' ' :: ve)) := by
  rcases hv with rfl | ⟨w0, rfl⟩
  · have hshape : ' ' :: (g9t ++ rest0) =
        (([] : List Char) ++ ' ' :: (g9t ++ rest0)) := rfl
    rw [hshape]
    apply ext_seq_gstar nonSpace_space nonSpace_space ?_ caps
    intro j hj caps'
    have hj0 : j = 0 := Nat.le_zero.1 hj
    subst hj0
    have hsh2 : List.drop 0 ([] : List Char) ++ ' ' :: (g9t ++ rest0) =
        ' ' :: (g9t ++ rest0) := by simp
    rw [hsh2]
    exact extC17all hS3 hg9ne hg9nq hg9ns (Or.inl rfl) caps'
  · have hshape : w0 ++ S3 :: ' ' :: (g9t ++ rest0) =
        ((w0 ++ [S3]) ++ ' ' :: (g9t ++ rest0)) := by simp
    rw [hshape]
    apply ext_seq_gstar nonSpace_space nonSpace_space ?_ caps
    intro j hj caps'
    rw [List.length_append, List.length_singleton] at hj
    by_cases hjle : j ≤ w0.length
    · have hsh2 : (w0 ++ [S3]).drop j ++ ' ' :: (g9t ++ rest0) =
          w0.drop j ++ S3 :: ' ' :: (g9t ++ rest0) := by
        rw [List.drop_append_of_le_length hjle]
        simp
      rw [hsh2]
      exact extC17all hS3 hg9ne hg9nq hg9ns (Or.inr ⟨w0.drop j, rfl⟩) caps'
    · have hjeq : j = (w0 ++ [S3]).length := by
        rw [List.length_append, List.length_singleton]
        omega
      have hsh2 : (w0 ++ [S3]).drop j ++ ' ' :: (g9t ++ rest0) =
          ' ' :: (g9t ++ rest0) := by
        rw [hjeq, List.drop_length]
        simp
      rw [hsh2]
      exact extC17all hS3 hg9ne hg9nq hg9ns (Or.inl rfl) caps'

theorem extC15all {ve g9t rest0 : List Char} {S1 S2 S3 : Char}
    (hS1 : isDigitB S1 = true) (hS3 : isDigitB S3 = true) (hg9ne : g9t ≠ [])
    (hg9nq : ∀ ch ∈ g9t, ch ≠ '"')
    (hg9ns : ∀ ch ∈ g9t, nonSpace ch = true) {v : List Char}
    (hv : ∃ A, v = A ++ ' ' :: S1 :: S2 :: S3 :: ' ' :: (g9t ++ rest0))
    (caps : List (Nat × List Char)) :
    matchAll C15 (v ++ ' ' :: ve) caps = (matchAll C15 v caps).map (extMap (' ' :: ve)) := by
  obtain ⟨A, rfl⟩ := hv
  have hshape : A ++ ' ' :: S1 :: S2 :: S3 :: ' ' :: (g9t ++ rest0) =
      ((A ++ [' ']) ++ S1 :: (S2 :: S3 :: ' ' :: (g9t ++ rest0))) := by simp
  rw [hshape]
  apply ext_seq_star (isDigitB_not_space hS1) ?_ caps
  intro j hj caps'
  have hsh2 : (A ++ [' ']).drop j ++ S1 :: (S2 :: S3 :: ' ' :: (g9t ++ rest0)) =
      ((A ++ [' ']).drop j ++ S1 :: [S2]) ++ S3 :: ' ' :: (g9t ++ rest0) := by
    simp
  rw [hsh2]
  exact extC16all hS3 hg9ne hg9nq hg9ns
    (Or.inr ⟨(A ++ [' ']).drop j ++ S1 :: [S2], rfl⟩) caps'

theorem extC14all {ve g9t rest0 : List Char} {S1 S2 S3 : Char}
    (hS1 : isDigitB S1 = true) (hS3 : isDigitB S3 = true) (hg9ne : g9t ≠ [])
    (hg9nq : ∀ ch ∈ g9t, ch ≠ '"')
    (hg9ns : ∀ ch ∈ g9t, nonSpace ch = true) {v : List Char}
    (hv : ∃ Q, v = Q ++ ' ' :: (S1 :: S2 :: S3 :: ' ' :: (g9t ++ rest0)))
    (caps : List (Nat × List Char)) :
    matchAll C14 (v ++ ' ' :: ve) caps = (matchAll C14 v caps).map (extMap (' ' :: ve)) := by
  obtain ⟨Q, rfl⟩ := hv
  apply ext_seq_gplus nonSpace_space nonSpace_space ?_ caps
  intro j hj caps'
  exact extC15all hS1 hS3 hg9ne hg9nq hg9ns ⟨Q.drop j, rfl⟩ caps'

theorem extC13all {ve g9t rest0 : List Char} {S1 S2 S3 : Char}
    (hS1 : isDigitB S1 = true) (hS3 : isDigitB S3 = true) (hg9ne : g9t ≠ [])
    (hg9nq : ∀ ch ∈ g9t, ch ≠ '"')
    (hg9ns : ∀ ch ∈ g9t, nonSpace ch = true) {v : List Char}
    (hv : ∃ A Q, v = A ++ ' ' :: (Q ++ ' ' :: (S1 :: S2 :: S3 :: ' ' :: (g9t ++ rest0))))
    (caps : List (Nat × List Char)) :
    matchAll C13 (v ++ ' ' :: ve) caps = (matchAll C13 v caps).map (extMap (' ' :: ve)) := by
  obtain ⟨A, Q, rfl⟩ := hv
  apply ext_seq_cls_head (by simp)
  intro a t hva hca
  cases A with
  | nil =>
    rw [List.nil_append] at hva
    injection hva with _ h2
    subst h2
    exact extC14all hS1 hS3 hg9ne hg9nq hg9ns ⟨Q, rfl⟩ caps
  | cons b A' =>
    rw [List.cons_append] at hva
    injection hva with _ h2
    subst h2
    have hsh : A' ++ ' ' :: (Q ++ ' ' :: (S1 :: S2 :: S3 :: ' ' :: (g9t ++ rest0))) =
        (A' ++ ' ' :: Q) ++ ' ' :: (S1 :: S2 :: S3 :: ' ' :: (g9t ++ rest0)) := by
      simp
    rw [hsh]
    exact extC14all hS1 hS3 hg9ne hg9nq hg9ns ⟨A' ++ ' ' :: Q, rfl⟩ caps

theorem extC12all {ve g9t rest0 : List Char} {S1 S2 S3 : Char}
    (hS1 : isDigitB S1 = true) (hS3 : isDigitB S3 = true) (hg9ne : g9t ≠ [])
    (hg9nq : ∀ ch ∈ g9t, ch ≠ '"')
    (hg9ns : ∀ ch ∈ g9t, nonSpace ch = true) {v : List Char}
    (hv : ∃ A Q, v = A ++ ' ' :: (Q ++ ' ' :: (S1 :: S2 :: S3 :: ' ' :: (g9t ++ rest0))))
    (caps : List (Nat × List Char)) :
    matchAll C12 (v ++ ' ' :: ve) caps = (matchAll C12 v caps).map (extMap (' ' :: ve)) := by
  obtain ⟨A, Q, rfl⟩ := hv
  apply ext_seq_gplus nonSpace_space nonSpace_space ?_ caps
  intro j hj caps'
  exact extC13all hS1 hS3 hg9ne hg9nq hg9ns ⟨A.drop j, Q, rfl⟩ caps'

theorem extC11all {ve g9t rest0 : List Char} {S1 S2 S3 : Char}
    (hS1 : isDigitB S1 = true) (hS3 : isDigitB S3 = true) (hg9ne : g9t ≠ [])
    (hg9nq : ∀ ch ∈ g9t, ch ≠ '"')
    (hg9ns : ∀ ch ∈ g9t, nonSpace ch = true) {v : List Char}
    (hv : ∃ A Q, v =
      '"' :: (A ++ ' ' :: (Q ++ ' ' :: (S1 :: S2 :: S3 :: ' ' :: (g9t ++ rest0)))))
    (caps : List (Nat × List Char)) :
    matchAll C11 (v ++ ' ' :: ve) caps = (matchAll C11 v caps).map (extMap (' ' :: ve)) := by
  obtain ⟨A, Q, rfl⟩ := hv
  apply ext_seq_cls_head (by simp)
  intro a t hva hca
  injection hva with _ h2
  subst h2
  exact extC12all hS1 hS3 hg9ne hg9nq hg9ns ⟨A, Q, rfl⟩ caps

theorem extG4tail {ve : List Char} (v : List Char) (caps : List (Nat × List Char)) :
    matchAll (.seq (.cls plusMinus) (.seq (.cls isDigitB) (.seq (.cls isDigitB)
        (.seq (.cls isDigitB) (.seq (.cls isDigitB) .eps))))) (v ++ ' ' :: ve) caps =
      (matchAll (.seq (.cls plusMinus) (.seq (.cls isDigitB) (.seq (.cls isDigitB)
        (.seq (.cls isDigitB) (.seq (.cls isDigitB) .eps))))) v caps).map
        (extMap (' ' :: ve)) := by
  apply ext_seq (ext_cls (fun _ => by decide))
  intro p _
  apply ext_seq (ext_cls (fun _ => by decide))
  intro p2 _
  apply ext_seq (ext_cls (fun _ => by decide))
  intro p3 _
  apply ext_seq (ext_cls (fun _ => by decide))
  intro p4 _
  apply ext_seq (ext_cls (fun _ => by decide))
  intro p5 _
  exact ext_eps

theorem extC10rall {ve : List Char} {A Q : List Char} {S1 S2 S3 : Char}
    {g9t rest0 : List Char}
    (hS1 : isDigitB S1 = true) (hS3 : isDigitB S3 = true) (hg9ne : g9t ≠ [])
    (hg9nq : ∀ ch ∈ g9t, ch ≠ '"')
    (hg9ns : ∀ ch ∈ g9t, nonSpace ch = true) {v : List Char}
    (hv : v = ' ' :: '"' ::
      (A ++ ' ' :: (Q ++ ' ' :: (S1 :: S2 :: S3 :: ' ' :: (g9t ++ rest0)))))
    (caps : List (Nat × List Char)) :
    matchAll C10r (v ++ ' ' :: ve) caps =
      (matchAll C10r v caps).map (extMap (' ' :: ve)) := by
  subst hv
  apply ext_seq_cls_head (by simp)
  intro a t hva hca
  injection hva with _ h2
  subst h2
  exact extC11all hS1 hS3 hg9ne hg9nq hg9ns ⟨A, Q, rfl⟩ caps

theorem extC9rall {ve : List Char} {A Q : List Char} {S1 S2 S3 : Char}
    {g9t rest0 : List Char}
    (hS1 : isDigitB S1 = true) (hS3 : isDigitB S3 = true) (hg9ne : g9t ≠ [])
    (hg9nq : ∀ ch ∈ g9t, ch ≠ '"')
    (hg9ns : ∀ ch ∈ g9t, nonSpace ch = true) {v : List Char}
    (hv : v = ']' :: ' ' :: '"' ::
      (A ++ ' ' :: (Q ++ ' ' :: (S1 :: S2 :: S3 :: ' ' :: (g9t ++ rest0)))))
    (caps : List (Nat × List Char)) :
    matchAll C9r (v ++ ' ' :: ve) caps =
      (matchAll C9r v caps).map (extMap (' ' :: ve)) := by
  subst hv
  apply ext_seq_cls_head (by simp)
  intro a t hva hca
  injection hva with _ h2
  subst h2
  exact extC10rall hS1 hS3 hg9ne hg9nq hg9ns rfl caps

theorem extC8all {ve t4a : List Char} {sp4 sgn dd1 dd2 dd3 dd4 : Char}
    {A Q : List Char} {S1 S2 S3 : Char} {g9t rest0 : List Char}
    (ht4a : ∀ ch ∈ t4a, wordColonSlash ch = true)
    (hsp4 : isSpaceP sp4 = true)
    (hS1 : isDigitB S1 = true) (hS3 : isDigitB S3 = true) (hg9ne : g9t ≠ [])
    (hg9nq : ∀ ch ∈ g9t, ch ≠ '"')
    (hg9ns : ∀ ch ∈ g9t, nonSpace ch = true) {v : List Char}
    (hv : v = reqTail t4a sp4 sgn dd1 dd2 dd3 dd4 A Q S1 S2 S3 g9t rest0)
    (caps : List (Nat × List Char)) :
    matchAll C8 (v ++ ' ' :: ve) caps =
      (matchAll C8 v caps).map (extMap (' ' :: ve)) := by
  subst hv
  apply ext_seq
  · apply ext_group
    apply ext_seq
    · exact ext_plus (fun _ => by decide)
    · intro p hp
      simp only [matchAll, List.mem_map] at hp
      obtain ⟨r', hr', hpr⟩ := hp
      obtain ⟨i, _, hi2, hrd⟩ := mem_dropsDescPos hr'
      have hile : i ≤ t4a.length :=
        le_trans hi2 (takeWhile_len_bound (space_not_wcs hsp4) _ _)
      rw [← hpr]
      simp only
      rw [hrd]
      rw [reqTail, List.drop_append_of_le_length hile]
      have hDall : ∀ ch ∈ t4a.drop i, wordColonSlash ch = true :=
        fun ch hch => ht4a ch (List.drop_subset _ _ hch)
      apply ext_seq_cls_head (by simp)
      intro a2 t2 hva hca
      cases hD : t4a.drop i with
      | nil =>
        rw [hD, List.nil_append] at hva
        injection hva with _ h2
        subst h2
        exact extG4tail _ _
      | cons b D' =>
        rw [hD, List.cons_append] at hva
        injection hva with h1 _
        have hb : wordColonSlash b = true := hDall b (by rw [hD]; simp)
        rw [h1] at hb
        rw [wcs_not_space hb] at hca
        exact absurd hca (by decide)
  · intro p hp
    obtain ⟨t, e, hveq, _, hsat⟩ := matchAll_soundC _ _ _ _ hp
    obtain ⟨e', _, hsat⟩ := SatC_group hsat
    obtain ⟨ta, tb, _, _, ht, _, hA2, hsat⟩ := SatC_seq hsat
    obtain ⟨⟨_, htaall⟩, _⟩ := SatC_plus hA2
    obtain ⟨tsp, tc, _, _, ht2, _, hB2, hsat⟩ := SatC_seq hsat
    obtain ⟨⟨csp, hcsp, hcspP⟩, _⟩ := SatC_cls hB2
    obtain ⟨tpm, td, _, _, ht3, _, hC2, hsat⟩ := SatC_seq hsat
    obtain ⟨⟨cpm, hcpm, _⟩, _⟩ := SatC_cls hC2
    obtain ⟨t1, te2, _, _, ht4, _, hD2, hsat⟩ := SatC_seq hsat
    obtain ⟨⟨c1', hc1, _⟩, _⟩ := SatC_cls hD2
    obtain ⟨t2', tf, _, _, ht5, _, hE2, hsat⟩ := SatC_seq hsat
    obtain ⟨⟨c2', hc2, _⟩, _⟩ := SatC_cls hE2
    obtain ⟨t3', tg, _, _, ht6, _, hF2, hsat⟩ := SatC_seq hsat
    obtain ⟨⟨c3', hc3, _⟩, _⟩ := SatC_cls hF2
    obtain ⟨t4', th2, _, _, ht7, _, hG2, hsat⟩ := SatC_seq hsat
    obtain ⟨⟨c4', hc4, _⟩, _⟩ := SatC_cls hG2
    obtain ⟨hth2, _⟩ := SatC_eps hsat
    subst ht ht2 ht3 ht4 ht5 ht6 ht7 hcsp hcpm hc1 hc2 hc3 hc4 hth2
    simp only [reqTail, List.append_assoc, List.cons_append, List.nil_append,
      List.append_nil] at hveq
    obtain ⟨hta, hsp', hrest⟩ := append_eq_append_class ht4a htaall
      (space_not_wcs hsp4) (space_not_wcs hcspP) hveq
    injection hrest with _ hrest
    injection hrest with _ hrest
    injection hrest with _ hrest
    injection hrest with _ hrest
    injection hrest with _ hrest
    rw [← hrest]
    exact extC9rall hS1 hS3 hg9ne hg9nq hg9ns rfl p.2

theorem extC7all {ve t4a : List Char} {sp4 sgn dd1 dd2 dd3 dd4 : Char}
    {A Q : List Char} {S1 S2 S3 : Char} {g9t rest0 : List Char}
    (ht4a : ∀ ch ∈ t4a, wordColonSlash ch = true)
    (hsp4 : isSpaceP sp4 = true)
    (hS1 : isDigitB S1 = true) (hS3 : isDigitB S3 = true) (hg9ne : g9t ≠ [])
    (hg9nq : ∀ ch ∈ g9t, ch ≠ '"')
    (hg9ns : ∀ ch ∈ g9t, nonSpace ch = true) {v : List Char}
    (hv : v = '[' :: reqTail t4a sp4 sgn dd1 dd2 dd3 dd4 A Q S1 S2 S3 g9t rest0)
    (caps : List (Nat × List Char)) :
    matchAll C7 (v ++ ' ' :: ve) caps =
      (matchAll C7 v caps).map (extMap (' ' :: ve)) := by
  subst hv
  apply ext_seq_cls_head (by simp)
  intro a t hva hca
  injection hva with _ h2
  subst h2
  exact extC8all ht4a hsp4 hS1 hS3 hg9ne hg9nq hg9ns rfl caps

theorem extC6all {ve t4a : List Char} {sp4 sgn dd1 dd2 dd3 dd4 : Char}
    {A Q : List Char} {S1 S2 S3 : Char} {g9t rest0 : List Char}
    (ht4a : ∀ ch ∈ t4a, wordColonSlash ch = true)
    (hsp4 : isSpaceP sp4 = true)
    (hS1 : isDigitB S1 = true) (hS3 : isDigitB S3 = true) (hg9ne : g9t ≠ [])
    (hg9nq : ∀ ch ∈ g9t, ch ≠ '"')
    (hg9ns : ∀ ch ∈ g9t, nonSpace ch = true) {v : List Char}
    (hv : ∃ A3, (∀ ch ∈ A3, nonSpace ch = true) ∧ v = A3 ++ ' ' ::
      ('[' :: reqTail t4a sp4 sgn dd1 dd2 dd3 dd4 A Q S1 S2 S3 g9t rest0))
    (caps : List (Nat × List Char)) :
    matchAll C6 (v ++ ' ' :: ve) caps =
      (matchAll C6 v caps).map (extMap (' ' :: ve)) := by
  obtain ⟨A3, hA3, rfl⟩ := hv
  apply ext_seq_cls_head (by simp)
  intro a t hva hca
  have ha : a = ' ' := of_decide_eq_true hca
  cases A3 with
  | nil =>
    rw [List.nil_append] at hva
    injection hva with _ h2
    subst h2
    exact extC7all ht4a hsp4 hS1 hS3 hg9ne hg9nq hg9ns rfl caps
  | cons b A3' =>
    rw [List.cons_append] at hva
    injection hva with h1 _
    exact absurd (h1.trans ha) (nonSpace_ne_space (hA3 b (by simp)))

theorem extC5all {ve t4a : List Char} {sp4 sgn dd1 dd2 dd3 dd4 : Char}
    {A Q : List Char} {S1 S2 S3 : Char} {g3t g9t rest0 : List Char}
    (hg3all : ∀ ch ∈ g3t, nonSpace ch = true)
    (ht4a : ∀ ch ∈ t4a, wordColonSlash ch = true)
    (hsp4 : isSpaceP sp4 = true)
    (hS1 : isDigitB S1 = true) (hS3 : isDigitB S3 = true) (hg9ne : g9t ≠ [])
    (hg9nq : ∀ ch ∈ g9t, ch ≠ '"')
    (hg9ns : ∀ ch ∈ g9t, nonSpace ch = true) {v : List Char}
    (hv : v = g3t ++ ' ' ::
      ('[' :: reqTail t4a sp4 sgn dd1 dd2 dd3 dd4 A Q S1 S2 S3 g9t rest0))
    (caps : List (Nat × List Char)) :
    matchAll C5 (v ++ ' ' :: ve) caps =
      (matchAll C5 v caps).map (extMap (' ' :: ve)) := by
  subst hv
  apply ext_seq_gplus nonSpace_space nonSpace_space ?_ caps
  intro j hj caps'
  exact extC6all ht4a hsp4 hS1 hS3 hg9ne hg9nq hg9ns
    ⟨g3t.drop j, fun ch hch => hg3all ch (List.drop_subset _ _ hch), rfl⟩ caps'

theorem extC4all {ve t4a : List Char} {sp4 sgn dd1 dd2 dd3 dd4 : Char}
    {A Q : List Char} {S1 S2 S3 : Char} {g3t g9t rest0 : List Char}
    (hg3all : ∀ ch ∈ g3t, nonSpace ch = true)
    (ht4a : ∀ ch ∈ t4a, wordColonSlash ch = true)
    (hsp4 : isSpaceP sp4 = true)
    (hS1 : isDigitB S1 = true) (hS3 : isDigitB S3 = true) (hg9ne : g9t ≠ [])
    (hg9nq : ∀ ch ∈ g9t, ch ≠ '"')
    (hg9ns : ∀ ch ∈ g9t, nonSpace ch = true) {v : List Char}
    (hv : ∃ A2, (∀ ch ∈ A2, nonSpace ch = true) ∧ v = A2 ++ ' ' :: (g3t ++ ' ' ::
      ('[' :: reqTail t4a sp4 sgn dd1 dd2 dd3 dd4 A Q S1 S2 S3 g9t rest0)))
    (caps : List (Nat × List Char)) :
    matchAll C4 (v ++ ' ' :: ve) caps =
      (matchAll C4 v caps).map (extMap (' ' :: ve)) := by
  obtain ⟨A2, hA2, rfl⟩ := hv
  apply ext_seq_cls_head (by simp)
  intro a t hva hca
  have ha : a = ' ' := of_decide_eq_true hca
  cases A2 with
  | nil =>
    rw [List.nil_append] at hva
    injection hva with _ h2
    subst h2
    exact extC5all hg3all ht4a hsp4 hS1 hS3 hg9ne hg9nq hg9ns rfl caps
  | cons b A2' =>
    rw [List.cons_append] at hva
    injection hva with h1 _
    exact absurd (h1.trans ha) (nonSpace_ne_space (hA2 b (by simp)))

theorem extC3all {ve t4a : List Char} {sp4 sgn dd1 dd2 dd3 dd4 : Char}
    {A Q : List Char} {S1 S2 S3 : Char} {g2t g3t g9t rest0 : List Char}
    (hg2all : ∀ ch ∈ g2t, nonSpace ch = true)
    (hg3all : ∀ ch ∈ g3t, nonSpace ch = true)
    (ht4a : ∀ ch ∈ t4a, wordColonSlash ch = true)
    (hsp4 : isSpaceP sp4 = true)
    (hS1 : isDigitB S1 = true) (hS3 : isDigitB S3 = true) (hg9ne : g9t ≠ [])
    (hg9nq : ∀ ch ∈ g9t, ch ≠ '"')
    (hg9ns : ∀ ch ∈ g9t, nonSpace ch = true) {v : List Char}
    (hv : v = g2t ++ ' ' :: (g3t ++ ' ' ::
      ('[' :: reqTail t4a sp4 sgn dd1 dd2 dd3 dd4 A Q S1 S2 S3 g9t rest0)))
    (caps : List (Nat × List Char)) :
    matchAll C3 (v ++ ' ' :: ve) caps =
      (matchAll C3 v caps).map (extMap (' ' :: ve)) := by
  subst hv
  apply ext_seq_gplus nonSpace_space nonSpace_space ?_ caps
  intro j hj caps'
  exact extC4all hg3all ht4a hsp4 hS1 hS3 hg9ne hg9nq hg9ns
    ⟨g2t.drop j, fun ch hch => hg2all ch (List.drop_subset _ _ hch), rfl⟩ caps'

theorem extC2all {ve t4a : List Char} {sp4 sgn dd1 dd2 dd3 dd4 : Char}
    {A Q : List Char} {S1 S2 S3 : Char} {g2t g3t g9t rest0 : List Char}
    (hg2all : ∀ ch ∈ g2t, nonSpace ch = true)
    (hg3all : ∀ ch ∈ g3t, nonSpace ch = true)
    (ht4a : ∀ ch ∈ t4a, wordColonSlash ch = true)
    (hsp4 : isSpaceP sp4 = true)
    (hS1 : isDigitB S1 = true) (hS3 : isDigitB S3 = true) (hg9ne : g9t ≠ [])
    (hg9nq : ∀ ch ∈ g9t, ch ≠ '"')
    (hg9ns : ∀ ch ∈ g9t, nonSpace ch = true) {v : List Char}
    (hv : ∃ A1, (∀ ch ∈ A1, nonSpace ch = true) ∧ v = A1 ++ ' ' :: (g2t ++ ' ' ::
      (g3t ++ ' ' ::
        ('[' :: reqTail t4a sp4 sgn dd1 dd2 dd3 dd4 A Q S1 S2 S3 g9t rest0))))
    (caps : List (Nat × List Char)) :
    matchAll C2 (v ++ ' ' :: ve) caps =
      (matchAll C2 v caps).map (extMap (' ' :: ve)) := by
  obtain ⟨A1, hA1, rfl⟩ := hv
  apply ext_seq_cls_head (by simp)
  intro a t hva hca
  have ha : a = ' ' := of_decide_eq_true hca
  cases A1 with
  | nil =>
    rw [List.nil_append] at hva
    injection hva with _ h2
    subst h2
    exact extC3all hg2all hg3all ht4a hsp4 hS1 hS3 hg9ne hg9nq hg9ns rfl caps
  | cons b A1' =>
    rw [List.cons_append] at hva
    injection hva with h1 _
    exact absurd (h1.trans ha) (nonSpace_ne_space (hA1 b (by simp)))

theorem extC1all {ve t4a : List Char} {sp4 sgn dd1 dd2 dd3 dd4 : Char}
    {A Q : List Char} {S1 S2 S3 : Char} {g1t g2t g3t g9t rest0 : List Char}
    (hg1all : ∀ ch ∈ g1t, nonSpace ch = true)
    (hg2all : ∀ ch ∈ g2t, nonSpace ch = true)
    (hg3all : ∀ ch ∈ g3t, nonSpace ch = true)
    (ht4a : ∀ ch ∈ t4a, wordColonSlash ch = true)
    (hsp4 : isSpaceP sp4 = true)
    (hS1 : isDigitB S1 = true) (hS3 : isDigitB S3 = true) (hg9ne : g9t ≠ [])
    (hg9nq : ∀ ch ∈ g9t, ch ≠ '"')
    (hg9ns : ∀ ch ∈ g9t, nonSpace ch = true) {v : List Char}
    (hv : v = g1t ++ ' ' :: (g2t ++ ' ' :: (g3t ++ ' ' ::
      ('[' :: reqTail t4a sp4 sgn dd1 dd2 dd3 dd4 A Q S1 S2 S3 g9t rest0))))
    (caps : List (Nat × List Char)) :
    matchAll C1 (v ++ ' ' :: ve) caps =
      (matchAll C1 v caps).map (extMap (' ' :: ve)) := by
  subst hv
  apply ext_seq_gplus nonSpace_space nonSpace_space ?_ caps
  intro j hj caps'
  exact extC2all hg2all hg3all ht4a hsp4 hS1 hS3 hg9ne hg9nq hg9ns
    ⟨g1t.drop j, fun ch hch => hg1all ch (List.drop_subset _ _ hch), rfl⟩ caps'

theorem dropWhile_all_false {c : Char → Bool} {s : List Char}
    (h : ∀ ch ∈ s, c ch = false) : s.dropWhile c = s := by
  cases s with
  | nil => rfl
  | cons a t =>
    rw [List.dropWhile_cons, if_neg (by rw [h a (by simp)]; simp)]

theorem pyStrip_nonSpace {s : List Char}
    (h : ∀ ch ∈ s, isSpaceP ch = false) : pyStrip s = s := by
  have h2 : ∀ ch ∈ s.reverse, isSpaceP ch = false :=
    fun ch hch => h ch (List.mem_reverse.1 hch)
  rw [pyStrip, dropWhile_all_false h, dropWhile_all_false h2,
    List.reverse_reverse]

/-- Any string accepted by Python `int`/`long` consists of a sign and
digits only. -/
theorem pyIntCore_chars {t : List Char} {n : Int} (h : pyIntCore t = some n) :
    ∀ ch ∈ t, ch = '+' ∨ ch = '-' ∨ isDigitB ch = true := by
  cases t with
  | nil => simp [pyIntCore] at h
  | cons c rest =>
    simp only [pyIntCore] at h
    intro ch hch
    by_cases hp : c = '+'
    · rw [if_pos hp] at h
      split at h
      next hcond =>
        rcases List.mem_cons.1 hch with rfl | hch'
        · exact Or.inl hp
        · refine Or.inr (Or.inr ?_)
          have hall := hcond.2
          rw [List.all_eq_true] at hall
          exact hall ch hch'
      next hcond => exact absurd h (by simp)
    · rw [if_neg hp] at h
      by_cases hm : c = '-'
      · rw [if_pos hm] at h
        split at h
        next hcond =>
          rcases List.mem_cons.1 hch with rfl | hch'
          · exact Or.inr (Or.inl hm)
          · refine Or.inr (Or.inr ?_)
            have hall := hcond.2
            rw [List.all_eq_true] at hall
            exact hall ch hch'
        next hcond => exact absurd h (by simp)
      · rw [if_neg hm] at h
        split at h
        next hcond =>
          refine Or.inr (Or.inr ?_)
          rw [List.all_eq_true] at hcond
          exact hcond ch hch
        next hcond => exact absurd h (by simp)

theorem pyInt_no_quote {t : List Char} {n : Int}
    (hns : ∀ ch ∈ t, nonSpace ch = true)
    (h : pyInt t = some n) : ∀ ch ∈ t, ch ≠ '"' := by
  intro ch hch
  rw [pyInt, pyStrip_nonSpace
    (fun c hc => by simpa [nonSpace] using hns c hc)] at h
  rcases pyIntCore_chars h ch hch with rfl | rfl | hd
  · decide
  · decide
  · exact isDigitB_ne_quote hd

/-- Claim C10: the pattern is anchored only at the start of the line, so a
line that parses to a record still parses to the same record after appending
arbitrary extra text behind a trailing space; the extra content is silently
ignored. -/
theorem claim10_trailing_text_ignored (line extra : List Char)
    (r : AccessLogRecord) (h : parseApacheLogLine line = .record r) :
    parseApacheLogLine (line ++ ' ' :: extra) = .record r := by
  cases hs : reSearch line with
  | none =>
    rw [parseApacheLogLine, hs] at h
    exact absurd h (by simp)
  | some pr =>
    obtain ⟨rest0, caps⟩ := pr
    obtain ⟨g1t, g2t, g3t, t4a, sp4, sgn, dd1, dd2, dd3, dd4, g5t, g6t, w1, g7t,
      w2, S1, S2, S3, g9t, hline, hg1, hg2, hg3, ht4, hsp4, hsgn, hg5, hg6, hw1,
      hg7, hw2, hS1, hS2, hS3, hg9, hcaps⟩ := record_line_decomp hs
    have hg9get : (getGroup caps 9).getD [] = g9t := by
      rw [hcaps]
      rfl
    have hg9nq : ∀ ch ∈ g9t, ch ≠ '"' := by
      rw [parseApacheLogLine, hs] at h
      simp only [hg9get] at h
      by_cases hdash : g9t = ['-']
      · intro ch hch
        rw [hdash] at hch
        simp only [List.mem_singleton] at hch
        subst hch
        decide
      · rw [if_neg hdash] at h
        cases hpy : pyInt g9t with
        | none =>
          rw [hpy] at h
          exact absurd h (by simp)
        | some sz => exact pyInt_no_quote hg9.2 hpy
    have hC1 : matchAll C1 (line ++ ' ' :: extra) [] =
        (matchAll C1 line []).map (extMap (' ' :: extra)) := by
      have hline2 : line = g1t ++ ' ' :: (g2t ++ ' ' :: (g3t ++ ' ' ::
          ('[' :: reqTail t4a sp4 sgn dd1 dd2 dd3 dd4 g5t
            (g6t ++ w1 ++ g7t ++ w2 ++ ['"']) S1 S2 S3 g9t rest0))) := by
        rw [hline]
        simp [reqTail]
      rw [hline2]
      exact extC1all hg1.2 hg2.2 hg3.2 ht4.2 hsp4 hS1 hS3 hg9.1 hg9nq hg9.2
        rfl []
    have hs' : (matchAll C1 line []).head? = some (rest0, caps) := hs
    have hsearch : reSearch (line ++ ' ' :: extra) =
        some (rest0 ++ ' ' :: extra, caps) := by
      show (matchAll APACHE_ACCESS_LOG_PATTERN (line ++ ' ' :: extra) []).head? = _
      rw [pattern_eq_C1, hC1, List.head?_map, hs']
      rfl
    rw [parseApacheLogLine, hs] at h
    rw [parseApacheLogLine, hsearch]
    exact h

theorem claim10_trailing_text_ignored_witness :
    parseApacheLogLine
        (goodLine ++ ' ' :: strL "ignored tail 123") = .record goodRec :=
  claim10_trailing_text_ignored goodLine (strL "ignored tail 123") goodRec
    (by decide)
